import Mathlib

/-!
# Verification of the rumale decision-tree split kernel

Shallow embedding of the split-scanner kernel of the rumale library
(`src/rumale-tree/ext/rumale/tree/ext.c`, `ext.hpp`, `ext.h`, and the older
`src/ext/rumale/tree.c`).  Machine doubles are modelled by an arbitrary
linear ordered field `α` (instantiated at `ℝ` for the double-specific
functions, since the entropy criterion calls `log`); `int32`/`long` counters
become `ℕ`; C arrays become `List`s read through `List.getD` with the same
index arithmetic as the source.

All five C translation units share one loop skeleton (outer sweep over the
sorted order, inner loop moving one group of equal feature values, candidate
evaluated at each group boundary, best record updated on strict
improvement).  The skeleton is embedded once (`moveGroup` / `scanLoop` /
`runScan`), parameterised by the per-variant accumulator state `S`, the
per-sample statistics update `step` and the candidate evaluator `evalC`,
exactly the r^ole played by the function pointer of `ext.h`'s
`DEF_ITER_FIND_SPLIT_CLS`.  Each source function is then an instantiation
of the skeleton with its own statistics code, translated line by line.
-/

namespace Rumale

/-- The four-element `params` array returned by the classification and
regression split scanners: left impurity, right impurity, threshold, gain. -/
structure SplitRecord (α : Type) where
  l_impurity : α
  r_impurity : α
  threshold  : α
  gain       : α
deriving DecidableEq

/-- One candidate threshold evaluated during a scan, together with the
statistics (`n_l`, `n_r`, accumulator `acc`) at the moment of evaluation.
This is the instrumentation used to reason about "every candidate evaluated
during the scan"; the program itself only keeps the running best record. -/
structure Cand (α : Type) (S : Type) where
  n_l : ℕ
  n_r : ℕ
  acc : S
  l_imp : α
  r_imp : α
  threshold : α
  gain : α
deriving DecidableEq

/-- The scanner state threaded through the sweep: the read position
`next_pos` and the partition sizes, plus the variant-specific statistics
accumulator `acc` (histogram pair / target-vector queues / grad-hess sums). -/
structure ScanSt (S : Type) where
  next_pos : ℕ
  n_l : ℕ
  n_r : ℕ
  acc : S
deriving DecidableEq

/-- The record written when a candidate wins (`params[0..3] = l, r, th, gain`). -/
def recOf {α S : Type} (c : Cand α S) : SplitRecord α :=
  ⟨c.l_imp, c.r_imp, c.threshold, c.gain⟩

/-- `if (gain > params[3]) { params[0..3] = ...; }` — strict-improvement update. -/
def updateBest {α S : Type} [LinearOrder α] (params : SplitRecord α) (c : Cand α S) :
    SplitRecord α :=
  if c.gain > params.gain then recOf c else params

/-- `f[o[i]]` — a feature value read through the order array. -/
def foAt {α : Type} [Zero α] (o : List ℕ) (f : List α) (i : ℕ) : α :=
  f.getD (o.getD i 0) 0

/-- The inner loop
`while (next_pos < n_elements && next_el == curr_el) { ...; next_pos++; }`:
moves one group of samples with feature value `curr_el` from the right
partition to the left one.  The fuel argument only bounds the recursion;
callers pass `n`, which always suffices because `next_pos` grows by one per
iteration and is bounded by `n`. -/
def moveGroup {α S : Type} [DecidableEq α] (step : ℕ → S → S) (fo : ℕ → α) (n : ℕ)
    (curr_el : α) : ℕ → ScanSt S → ScanSt S
  | 0, st => st
  | fuel + 1, st =>
    if st.next_pos < n ∧ fo st.next_pos = curr_el then
      moveGroup step fo n curr_el fuel
        ⟨st.next_pos + 1, st.n_l + 1, st.n_r - 1, step st.next_pos st.acc⟩
    else st

/-- The outer loop `while (curr_pos < n_elements && curr_el != last_el)`:
moves a group, evaluates the candidate threshold at the midpoint of the
current and next distinct feature value, updates the best record on strict
improvement, and advances.  Also returns the list of candidates evaluated,
in scan order (ghost instrumentation; the program returns only `params`). -/
def scanLoop {α S : Type} [LinearOrderedField α] [DecidableEq α] (step : ℕ → S → S)
    (evalC : S → ℕ → ℕ → α × α × α) (fo : ℕ → α) (n : ℕ) (last_el : α) :
    ℕ → α → ScanSt S → SplitRecord α → SplitRecord α × List (Cand α S)
  | 0, _, _, params => (params, [])
  | fuel + 1, curr_el, st, params =>
    if st.next_pos < n ∧ curr_el ≠ last_el then
      let st1 := moveGroup step fo n curr_el n st
      let next_el := fo st1.next_pos
      let v := evalC st1.acc st1.n_l st1.n_r
      let cand : Cand α S := ⟨st1.n_l, st1.n_r, st1.acc, v.1, v.2.1,
        (1 / 2 : α) * (curr_el + next_el), v.2.2⟩
      let params1 := updateBest params cand
      if st1.next_pos = n then (params1, [cand])
      else
        let r := scanLoop step evalC fo n last_el fuel (fo st1.next_pos) st1 params1
        (r.1, cand :: r.2)
    else (params, [])

/-- A whole scanner invocation: initial best record
`params = {0, w_impurity, f[o[0]], 0}`, initial state
`curr_pos = next_pos = 0, n_l = 0, n_r = n`, `last_el = f[o[n-1]]`,
then the outer loop. -/
def runScan {α S : Type} [LinearOrderedField α] [DecidableEq α] (step : ℕ → S → S)
    (evalC : S → ℕ → ℕ → α × α × α) (fo : ℕ → α) (n : ℕ) (init_acc : S) (w : α) :
    SplitRecord α × List (Cand α S) :=
  scanLoop step evalC fo n (fo (n - 1)) n (fo 0) ⟨0, 0, n, init_acc⟩ ⟨0, w, fo 0, 0⟩

/-! ## Criterion evaluators (`ext.c`) -/

/-- `histogram[i] += 1` at a class index (`+= 1.0` on a double array). -/
def hist_add {α : Type} [AddGroupWithOne α] (h : List α) (c : ℕ) : List α :=
  h.set c (h.getD c 0 + 1)

/-- `histogram[i] -= 1` at a class index. -/
def hist_sub {α : Type} [AddGroupWithOne α] (h : List α) (c : ℕ) : List α :=
  h.set c (h.getD c 0 - 1)

/-- `calc_gini_coef`: `1 - Σ_i (histogram[i]/n_elements)²`. -/
def calc_gini_coef {α : Type} [LinearOrderedField α] (histogram : List α)
    (n_elements n_classes : ℕ) : α :=
  1 - ((List.range n_classes).map (fun i =>
    (histogram.getD i 0 / (n_elements : α)) * (histogram.getD i 0 / (n_elements : α)))).sum

/-- `calc_entropy`: `-Σ_i el · log(el + 1)` with `el = histogram[i]/n_elements`.
Note the `+ 1` inside the logarithm — this is the source's formula, not
textbook Shannon entropy. -/
noncomputable def calc_entropy (histogram : List ℝ) (n_elements n_classes : ℕ) : ℝ :=
  -(((List.range n_classes).map (fun i =>
    (histogram.getD i 0 / (n_elements : ℝ)) *
      Real.log (histogram.getD i 0 / (n_elements : ℝ) + 1))).sum)

/-- Textbook Shannon entropy `-Σ_c p_c · ln(p_c)`, written from the spec's
words for contrast with `calc_entropy`; the spec notes the code does *not*
compute this. -/
noncomputable def shannonEntropy (histogram : List ℝ) (n_elements n_classes : ℕ) : ℝ :=
  -(∑ i ∈ Finset.range n_classes,
    (histogram.getD i 0 / (n_elements : ℝ)) *
      Real.log (histogram.getD i 0 / (n_elements : ℝ)))

/-- `calc_impurity_cls`: entropy for the tag "entropy", Gini for every other tag. -/
noncomputable def calc_impurity_cls (criterion : String) (histogram : List ℝ)
    (n_elements n_classes : ℕ) : ℝ :=
  if criterion = "entropy" then calc_entropy histogram n_elements n_classes
  else calc_gini_coef histogram n_elements n_classes

/-- `calc_mean_vec`: `mean_vec[i] = sum_vec[i] / n_elements`. -/
def calc_mean_vec {α : Type} [LinearOrderedField α] (sum_vec : List α)
    (n_dimensions n_elements : ℕ) : List α :=
  (List.range n_dimensions).map (fun i => sum_vec.getD i 0 / (n_elements : α))

/-- `calc_vec_mae`: mean absolute difference of two vectors over the
dimensions of the first. -/
def calc_vec_mae {α : Type} [LinearOrderedField α] (vec_a vec_b : List α) : α :=
  (((List.range vec_a.length).map (fun i => |vec_a.getD i 0 - vec_b.getD i 0|)).sum) /
    (vec_a.length : α)

/-- `calc_vec_mse`: mean squared difference of two vectors. -/
def calc_vec_mse {α : Type} [LinearOrderedField α] (vec_a vec_b : List α) : α :=
  (((List.range vec_a.length).map (fun i =>
    (vec_a.getD i 0 - vec_b.getD i 0) * (vec_a.getD i 0 - vec_b.getD i 0))).sum) /
    (vec_a.length : α)

/-- `calc_mae`: mean of `calc_vec_mae` against the mean vector. -/
def calc_mae {α : Type} [LinearOrderedField α] (target_vecs : List (List α))
    (mean_vec : List α) : α :=
  ((target_vecs.map (fun v => calc_vec_mae v mean_vec)).sum) / (target_vecs.length : α)

/-- `calc_mse`: mean of `calc_vec_mse` against the mean vector. -/
def calc_mse {α : Type} [LinearOrderedField α] (target_vecs : List (List α))
    (mean_vec : List α) : α :=
  ((target_vecs.map (fun v => calc_vec_mse v mean_vec)).sum) / (target_vecs.length : α)

/-- `calc_impurity_reg`: MAE for the tag "mae", MSE for every other tag;
the mean vector is `sum_vec / n_elements` with the dimension count taken
from the first target vector. -/
def calc_impurity_reg {α : Type} [LinearOrderedField α] (criterion : String)
    (target_vecs : List (List α)) (sum_vec : List α) : α :=
  let n_elements := target_vecs.length
  let n_dimensions := (target_vecs.headD []).length
  let mean_vec := calc_mean_vec sum_vec n_dimensions n_elements
  if criterion = "mae" then calc_mae target_vecs mean_vec
  else calc_mse target_vecs mean_vec

/-- `add_sum_vec`: `sum_vec[i] += target[i]` over the target's dimensions. -/
def add_sum_vec {α : Type} [LinearOrderedField α] : List α → List α → List α
  | sv, [] => sv
  | [], _ => []
  | a :: sv, b :: tgt => (a + b) :: add_sum_vec sv tgt

/-- `sub_sum_vec`: `sum_vec[i] -= target[i]` over the target's dimensions. -/
def sub_sum_vec {α : Type} [LinearOrderedField α] : List α → List α → List α
  | sv, [] => sv
  | [], _ => []
  | a :: sv, b :: tgt => (a - b) :: sub_sum_vec sv tgt

/-! ## Classification split scanner (`iter_find_split_params_cls`, `ext.c`) -/

/-- Per-sample statistics update of the classification scan:
`l_histogram[y[o[next_pos]]] += 1; r_histogram[y[o[next_pos]]] -= 1`. -/
def clsStep {α : Type} [AddGroupWithOne α] (o y : List ℕ) :
    ℕ → (List α × List α) → List α × List α :=
  fun pos acc =>
    (hist_add acc.1 (y.getD (o.getD pos 0) 0), hist_sub acc.2 (y.getD (o.getD pos 0) 0))

/-- Candidate evaluation shared by the classification variants:
left/right impurity from the two histograms, then
`gain = w_impurity - (n_l·l_impurity + n_r·r_impurity) / n_elements`. -/
def clsEval {α H : Type} [LinearOrderedField α] (imp : H → ℕ → α) (w : α) (n : ℕ) :
    H × H → ℕ → ℕ → α × α × α :=
  fun acc n_l n_r =>
    let li := imp acc.1 n_l
    let ri := imp acc.2 n_r
    (li, ri, w - ((n_l : α) * li + (n_r : α) * ri) / (n : α))

/-- `for (i = 0; i < n_elements; i++) r_histogram[y[o[i]]] += 1.0` starting
from an all-zero histogram of length `n_classes`. -/
def buildHist {α : Type} [AddGroupWithOne α] (o y : List ℕ) (n n_classes : ℕ) : List α :=
  (List.range n).foldl (fun h i => hist_add h (y.getD (o.getD i 0) 0))
    (List.replicate n_classes (0 : α))

/-- The classification scanner of `ext.c` with its candidate instrumentation. -/
noncomputable def cls_scan (criterion : String) (impurity : ℝ) (o : List ℕ)
    (f : List ℝ) (y : List ℕ) (n_classes : ℕ) :
    SplitRecord ℝ × List (Cand ℝ (List ℝ × List ℝ)) :=
  runScan (clsStep o y)
    (clsEval (fun hst m => calc_impurity_cls criterion hst m n_classes) impurity o.length)
    (foAt o f) o.length
    (List.replicate n_classes 0, buildHist o y o.length n_classes) impurity

/-- `find_split_params` of `ExtDecisionTreeClassifier` (`ext.c`):
the best-split record. -/
noncomputable def find_split_params_cls (criterion : String) (impurity : ℝ)
    (o : List ℕ) (f : List ℝ) (y : List ℕ) (n_classes : ℕ) : SplitRecord ℝ :=
  (cls_scan criterion impurity o f y n_classes).1

/-- The candidates evaluated by the classification scan, in scan order. -/
noncomputable def cls_candidates (criterion : String) (impurity : ℝ) (o : List ℕ)
    (f : List ℝ) (y : List ℕ) (n_classes : ℕ) : List (Cand ℝ (List ℝ × List ℝ)) :=
  (cls_scan criterion impurity o f y n_classes).2

/-! ## Regression split scanner (`iter_find_split_params_reg`, `ext.c`) -/

/-- The regression accumulator: `(l_target_vecs, l_sum_vec)` and
`(r_target_vecs, r_sum_vec)`. -/
def RegAcc (α : Type) : Type :=
  (List (List α) × List α) × (List (List α) × List α)

/-- `target = y[idx]` as an `n_outputs`-vector read from the flat target array. -/
def targetRow {α : Type} [Zero α] (y : List α) (n_outputs : ℕ) (idx : ℕ) : List α :=
  (List.range n_outputs).map (fun j => y.getD (idx * n_outputs + j) 0)

/-- Per-sample update of the regression scan: shift the front target vector
out of the right queue, subtract it from `r_sum_vec`, push it onto the left
queue, add it to `l_sum_vec`. -/
def regStep {α : Type} [LinearOrderedField α] (o : List ℕ) :
    ℕ → RegAcc α → RegAcc α :=
  fun _ acc =>
    let tgt := acc.2.1.headD []
    ((acc.1.1 ++ [tgt], add_sum_vec acc.1.2 tgt),
     (acc.2.1.tail, sub_sum_vec acc.2.2 tgt))

/-- Candidate evaluation of the regression scan: impurities through
`calc_impurity_reg`, gain by the weighted-average formula. -/
def regEval {α : Type} [LinearOrderedField α] (criterion : String) (w : α) (n : ℕ) :
    RegAcc α → ℕ → ℕ → α × α × α :=
  fun acc n_l n_r =>
    let li := calc_impurity_reg criterion acc.1.1 acc.1.2
    let ri := calc_impurity_reg criterion acc.2.1 acc.2.2
    (li, ri, w - ((n_l : α) * li + (n_r : α) * ri) / (n : α))

/-- Initial regression accumulator: empty left queue and zero left sums;
right queue `[y[o[0]], ..., y[o[n-1]]]` with `r_sum_vec` accumulated over it. -/
def reg_init {α : Type} [LinearOrderedField α] (o : List ℕ) (y : List α)
    (n n_outputs : ℕ) : RegAcc α :=
  (([], List.replicate n_outputs 0),
   ((List.range n).map (fun i => targetRow y n_outputs (o.getD i 0)),
    (List.range n).foldl (fun sv i => add_sum_vec sv (targetRow y n_outputs (o.getD i 0)))
      (List.replicate n_outputs 0)))

/-- The regression scanner of `ext.c` with its candidate instrumentation. -/
def reg_scan {α : Type} [LinearOrderedField α] [DecidableEq α] (criterion : String)
    (impurity : α) (o : List ℕ) (f : List α) (y : List α) (n_outputs : ℕ) :
    SplitRecord α × List (Cand α (RegAcc α)) :=
  runScan (regStep o) (regEval criterion impurity o.length) (foAt o f) o.length
    (reg_init o y o.length n_outputs) impurity

/-- `find_split_params` of `ExtDecisionTreeRegressor` (`ext.c`). -/
def find_split_params_reg {α : Type} [LinearOrderedField α] [DecidableEq α]
    (criterion : String) (impurity : α) (o : List ℕ) (f : List α) (y : List α)
    (n_outputs : ℕ) : SplitRecord α :=
  (reg_scan criterion impurity o f y n_outputs).1

/-- The candidates evaluated by the regression scan, in scan order. -/
def reg_candidates {α : Type} [LinearOrderedField α] [DecidableEq α]
    (criterion : String) (impurity : α) (o : List ℕ) (f : List α) (y : List α)
    (n_outputs : ℕ) : List (Cand α (RegAcc α)) :=
  (reg_scan criterion impurity o f y n_outputs).2

/-! ## Gradient-boosted split scanner (`iter_find_split_params_grad_reg`) -/

/-- Per-sample update: `l_grad += g[o[next_pos]]; l_hess += h[o[next_pos]]`. -/
def gradStep {α : Type} [LinearOrderedField α] (o : List ℕ) (g h : List α) :
    ℕ → α × α → α × α :=
  fun pos acc =>
    (acc.1 + g.getD (o.getD pos 0) 0, acc.2 + h.getD (o.getD pos 0) 0)

/-- Candidate evaluation of the gradient-boosted scan:
`r = s - l` and the Newton-style gain
`l_grad²/(l_hess+λ) + r_grad²/(r_hess+λ) - s_grad²/(s_hess+λ)`.
The scanner keeps no impurity output, so the first two components are 0. -/
def gradEval {α : Type} [LinearOrderedField α] (s_grad s_hess reg_lambda : α) :
    α × α → ℕ → ℕ → α × α × α :=
  fun acc _ _ =>
    let r_grad := s_grad - acc.1
    let r_hess := s_hess - acc.2
    (0, 0,
     acc.1 * acc.1 / (acc.2 + reg_lambda) + r_grad * r_grad / (r_hess + reg_lambda) -
       s_grad * s_grad / (s_hess + reg_lambda))

/-- The gradient-boosted scanner with its candidate instrumentation.
Initial `threshold = f[o[0]]`, `gain_max = 0`, `l_grad = l_hess = 0`. -/
def grad_scan {α : Type} [LinearOrderedField α] [DecidableEq α] (o : List ℕ)
    (f g h : List α) (s_grad s_hess reg_lambda : α) :
    SplitRecord α × List (Cand α (α × α)) :=
  runScan (gradStep o g h) (gradEval s_grad s_hess reg_lambda) (foAt o f) o.length
    ((0 : α), (0 : α)) 0

/-- `find_split_params` of `ExtGradientTreeRegressor`: the returned pair
`{threshold, gain}`. -/
def find_split_params_grad_reg {α : Type} [LinearOrderedField α] [DecidableEq α]
    (o : List ℕ) (f g h : List α) (s_grad s_hess reg_lambda : α) : α × α :=
  let r := (grad_scan o f g h s_grad s_hess reg_lambda).1
  (r.threshold, r.gain)

/-- The candidates evaluated by the gradient-boosted scan, in scan order. -/
def grad_candidates {α : Type} [LinearOrderedField α] [DecidableEq α] (o : List ℕ)
    (f g h : List α) (s_grad s_hess reg_lambda : α) : List (Cand α (α × α)) :=
  (grad_scan o f g h s_grad s_hess reg_lambda).2

/-! ## Node impurity evaluators (`ext.c`) -/

/-- `node_impurity` of `ExtDecisionTreeClassifier`: histogram over the raw
label array, then `calc_impurity_cls`. -/
noncomputable def node_impurity_cls (criterion : String) (y : List ℕ)
    (n_classes : ℕ) : ℝ :=
  calc_impurity_cls criterion
    ((List.range y.length).foldl (fun hst i => hist_add hst (y.getD i 0))
      (List.replicate n_classes (0 : ℝ)))
    y.length n_classes

/-- `node_impurity` of `ExtDecisionTreeRegressor`: accumulate the sum vector
over all target rows, then `calc_impurity_reg`. -/
def node_impurity_reg {α : Type} [LinearOrderedField α] (criterion : String)
    (y : List (List α)) : α :=
  calc_impurity_reg criterion y
    (y.foldl (fun sv t => add_sum_vec sv t) (List.replicate ((y.headD []).length) 0))

/-! ## The C++ variant (`ext.hpp`, `ExtDecisionTreeClassifier`) -/

/-- `std::vector<size_t>` histogram increment. -/
def histN_add (h : List ℕ) (c : ℕ) : List ℕ := h.set c (h.getD c 0 + 1)

/-- `std::vector<size_t>` histogram decrement. -/
def histN_sub (h : List ℕ) (c : ℕ) : List ℕ := h.set c (h.getD c 0 - 1)

/-- `ExtDecisionTreeClassifier::calc_impurity_` of `ext.hpp`: a single
function with the entropy/Gini branch inside, on a `size_t` histogram whose
entries are cast to double. -/
noncomputable def calc_impurity_hpp (criterion : String) (histogram : List ℕ)
    (n_elements n_classes : ℕ) : ℝ :=
  if criterion = "entropy" then
    -(((List.range n_classes).map (fun i =>
      ((histogram.getD i 0 : ℝ) / (n_elements : ℝ)) *
        Real.log ((histogram.getD i 0 : ℝ) / (n_elements : ℝ) + 1))).sum)
  else
    1 - ((List.range n_classes).map (fun i =>
      ((histogram.getD i 0 : ℝ) / (n_elements : ℝ)) *
        ((histogram.getD i 0 : ℝ) / (n_elements : ℝ)))).sum

/-- Per-sample update of the C++ scan (`size_t` histograms). -/
def hppStep (o y : List ℕ) : ℕ → (List ℕ × List ℕ) → List ℕ × List ℕ :=
  fun pos acc =>
    (histN_add acc.1 (y.getD (o.getD pos 0) 0), histN_sub acc.2 (y.getD (o.getD pos 0) 0))

/-- `for (i...) r_histogram[y[o[i]]] += 1` on a `size_t` histogram. -/
def buildHistN (o y : List ℕ) (n n_classes : ℕ) : List ℕ :=
  (List.range n).foldl (fun h i => histN_add h (y.getD (o.getD i 0) 0))
    (List.replicate n_classes 0)

/-- `ExtDecisionTreeClassifier::iter_find_split_params_` of `ext.hpp`. -/
noncomputable def find_split_params_hpp (criterion : String) (impurity : ℝ)
    (o : List ℕ) (f : List ℝ) (y : List ℕ) (n_classes : ℕ) : SplitRecord ℝ :=
  (runScan (hppStep o y)
    (clsEval (fun hst m => calc_impurity_hpp criterion hst m n_classes) impurity o.length)
    (foAt o f) o.length
    (List.replicate n_classes 0, buildHistN o y o.length n_classes) impurity).1

/-! ## The macro variant (`ext.h`, `DEF_ITER_FIND_SPLIT_CLS(dfloat)`) -/

/-- `calc_dfloat_gini` of `ext.h` (note the `(histogram, n_classes,
n_elements)` argument order of the macro). -/
def calc_dfloat_gini {α : Type} [LinearOrderedField α] (histogram : List α)
    (n_classes n_elements : ℕ) : α :=
  1 - ((List.range n_classes).map (fun i =>
    (histogram.getD i 0 / (n_elements : α)) * (histogram.getD i 0 / (n_elements : α)))).sum

/-- `calc_dfloat_entropy` of `ext.h`. -/
noncomputable def calc_dfloat_entropy (histogram : List ℝ)
    (n_classes n_elements : ℕ) : ℝ :=
  -(((List.range n_classes).map (fun i =>
    (histogram.getD i 0 / (n_elements : ℝ)) *
      Real.log (histogram.getD i 0 / (n_elements : ℝ) + 1))).sum)

/-- `iter_dfloat_find_split_cls` of `ext.h`: the impurity function pointer is
selected once before the loop (`calc_impurity = calc_dfloat_gini;
if (strcmp(criterion, "entropy") == 0) calc_impurity = calc_dfloat_entropy;`). -/
noncomputable def dfloat_find_split_cls (criterion : String) (impurity : ℝ)
    (o : List ℕ) (f : List ℝ) (y : List ℕ) (n_classes : ℕ) : SplitRecord ℝ :=
  let calcI : List ℝ → ℕ → ℝ :=
    if criterion = "entropy" then fun hst m => calc_dfloat_entropy hst n_classes m
    else fun hst m => calc_dfloat_gini hst n_classes m
  (runScan (clsStep o y) (clsEval calcI impurity o.length) (foAt o f) o.length
    (List.replicate n_classes 0, buildHist o y o.length n_classes) impurity).1

/-! ## Ghost analysis definitions

These are not part of the program; they give closed descriptions of the
scan's control flow (the group boundaries) and of the statistics at those
boundaries (folds of `step` over the moved positions), proved equal to what
the loops compute. -/

/-- The position at which the inner loop stops when started at `pos` on the
group with feature value `curr_el` (same recursion as `moveGroup`, state
dropped). -/
def groupEnd {α : Type} [DecidableEq α] (fo : ℕ → α) (n : ℕ) (curr_el : α) :
    ℕ → ℕ → ℕ
  | 0, pos => pos
  | fuel + 1, pos =>
    if pos < n ∧ fo pos = curr_el then groupEnd fo n curr_el fuel (pos + 1) else pos

/-- The group boundaries at which the outer loop evaluates a candidate
(same recursion as `scanLoop`, statistics dropped). -/
def boundList {α : Type} [DecidableEq α] (fo : ℕ → α) (n : ℕ) (last_el : α) :
    ℕ → α → ℕ → List ℕ
  | 0, _, _ => []
  | fuel + 1, curr_el, pos =>
    if pos < n ∧ curr_el ≠ last_el then
      if groupEnd fo n curr_el n pos = n then [groupEnd fo n curr_el n pos]
      else groupEnd fo n curr_el n pos ::
        boundList fo n last_el fuel (fo (groupEnd fo n curr_el n pos))
          (groupEnd fo n curr_el n pos)
    else []

/-- The boundaries visited by a whole scan. -/
def scanBounds {α : Type} [DecidableEq α] (fo : ℕ → α) (n : ℕ) : List ℕ :=
  boundList fo n (fo (n - 1)) n (fo 0) 0

/-- `step` folded over the positions `p, p+1, ..., q-1`. -/
def foldSteps {S : Type} (step : ℕ → S → S) (p q : ℕ) (s : S) : S :=
  (List.range' p (q - p)).foldl (fun a i => step i a) s

/-- The candidate evaluated at boundary `e` of a scan started from
`init_acc`: `n_l = e`, `n_r = n - e`, statistics = `step` folded over the
first `e` positions, threshold = midpoint of the group's value `fo (e-1)`
and the next value `fo e`. -/
def candAt {α S : Type} [LinearOrderedField α] (step : ℕ → S → S)
    (evalC : S → ℕ → ℕ → α × α × α) (fo : ℕ → α) (n : ℕ) (init_acc : S) (e : ℕ) :
    Cand α S :=
  let acc := foldSteps step 0 e init_acc
  let v := evalC acc e (n - e)
  ⟨e, n - e, acc, v.1, v.2.1, (1 / 2 : α) * (fo (e - 1) + fo e), v.2.2⟩

/-- The candidate at boundary `e`, relative to a scan resumed from position
`pos` with counters `nl`, `nr` and statistics `s` (generalization of
`candAt` used for the loop induction). -/
def candFrom {α S : Type} [LinearOrderedField α] (step : ℕ → S → S)
    (evalC : S → ℕ → ℕ → α × α × α) (fo : ℕ → α)
    (pos nl nr : ℕ) (s : S) (e : ℕ) : Cand α S :=
  let acc := foldSteps step pos e s
  let v := evalC acc (nl + (e - pos)) (nr - (e - pos))
  ⟨nl + (e - pos), nr - (e - pos), acc, v.1, v.2.1,
    (1 / 2 : α) * (fo (e - 1) + fo e), v.2.2⟩

/-! ## Characterization of the scan -/

section Characterize

variable {α S : Type} [LinearOrderedField α] [DecidableEq α]
variable {step : ℕ → S → S} {evalC : S → ℕ → ℕ → α × α × α} {fo : ℕ → α} {n : ℕ}

theorem groupEnd_ge (curr_el : α) (fuel pos : ℕ) :
    pos ≤ groupEnd fo n curr_el fuel pos := by
  induction fuel generalizing pos with
  | zero => exact le_refl _
  | succ fuel ih =>
    unfold groupEnd
    split
    · exact le_trans (Nat.le_succ pos) (ih (pos + 1))
    · exact le_refl _

theorem groupEnd_le (curr_el : α) (fuel : ℕ) {pos : ℕ} (h : pos ≤ n) :
    groupEnd fo n curr_el fuel pos ≤ n := by
  induction fuel generalizing pos with
  | zero => exact h
  | succ fuel ih =>
    unfold groupEnd
    split
    · next hc => exact ih hc.1
    · exact h

theorem groupEnd_mem (curr_el : α) (fuel : ℕ) {pos i : ℕ} (h1 : pos ≤ i)
    (h2 : i < groupEnd fo n curr_el fuel pos) : fo i = curr_el := by
  induction fuel generalizing pos with
  | zero => exact absurd (lt_of_le_of_lt h1 h2) (lt_irrefl _)
  | succ fuel ih =>
    rw [groupEnd] at h2
    by_cases hc : pos < n ∧ fo pos = curr_el
    · rw [if_pos hc] at h2
      rcases Nat.eq_or_lt_of_le h1 with he | hlt
      · exact he ▸ hc.2
      · exact ih hlt h2
    · rw [if_neg hc] at h2
      exact absurd (lt_of_le_of_lt h1 h2) (lt_irrefl _)

theorem groupEnd_gt (curr_el : α) {fuel pos : ℕ} (hfuel : 0 < fuel) (hp : pos < n)
    (hc : fo pos = curr_el) : pos < groupEnd fo n curr_el fuel pos := by
  obtain ⟨fuel, rfl⟩ := Nat.exists_eq_succ_of_ne_zero (Nat.pos_iff_ne_zero.mp hfuel)
  rw [groupEnd, if_pos ⟨hp, hc⟩]
  exact lt_of_lt_of_le (Nat.lt_succ_self pos) (groupEnd_ge curr_el fuel (pos + 1))

theorem foldSteps_self (p : ℕ) (s : S) : foldSteps step p p s = s := by
  simp [foldSteps]

theorem foldSteps_succ_left {p q : ℕ} (h : p < q) (s : S) :
    foldSteps step p q s = foldSteps step (p + 1) q (step p s) := by
  unfold foldSteps
  have h1 : q - p = (q - (p + 1)) + 1 := by omega
  rw [h1, List.range'_succ]
  rfl

theorem foldSteps_trans {p q r : ℕ} (h1 : p ≤ q) (h2 : q ≤ r) (s : S) :
    foldSteps step q r (foldSteps step p q s) = foldSteps step p r s := by
  unfold foldSteps
  rw [← List.foldl_append]
  have h3 : q = p + (q - p) := by omega
  have h4 : r - p = (r - q) + (q - p) := by omega
  rw [h4, ← List.range'_append_1 p (q - p) (r - q), ← h3]

theorem foldSteps_concat {p q : ℕ} (h : p ≤ q) (s : S) :
    foldSteps step p (q + 1) s = step q (foldSteps step p q s) := by
  rw [← foldSteps_trans h (Nat.le_succ q) s]
  unfold foldSteps
  have h1 : q + 1 - q = 1 := by omega
  rw [h1, List.range'_one]
  rfl

/-- What the inner loop computes, in closed form. -/
theorem moveGroup_eq (curr_el : α) (fuel : ℕ) (pos nl nr : ℕ) (s : S) :
    moveGroup step fo n curr_el fuel ⟨pos, nl, nr, s⟩ =
      ⟨groupEnd fo n curr_el fuel pos,
       nl + (groupEnd fo n curr_el fuel pos - pos),
       nr - (groupEnd fo n curr_el fuel pos - pos),
       foldSteps step pos (groupEnd fo n curr_el fuel pos) s⟩ := by
  induction fuel generalizing pos nl nr s with
  | zero => simp [moveGroup, groupEnd, foldSteps_self]
  | succ fuel ih =>
    rw [moveGroup, groupEnd]
    by_cases hc : pos < n ∧ fo pos = curr_el
    · rw [if_pos hc, if_pos hc, ih]
      have hge := @groupEnd_ge α _ _ fo n curr_el fuel (pos + 1)
      have h1 : nl + 1 + (groupEnd fo n curr_el fuel (pos + 1) - (pos + 1)) =
          nl + (groupEnd fo n curr_el fuel (pos + 1) - pos) := by omega
      have h2 : nr - 1 - (groupEnd fo n curr_el fuel (pos + 1) - (pos + 1)) =
          nr - (groupEnd fo n curr_el fuel (pos + 1) - pos) := by omega
      rw [h1, h2, ← foldSteps_succ_left (lt_of_lt_of_le (Nat.lt_succ_self pos) hge)]
    · rw [if_neg hc, if_neg hc]
      simp [foldSteps_self]

theorem boundList_gt (last_el : α) (fuel : ℕ) :
    ∀ (pos : ℕ), ∀ x ∈ boundList fo n last_el fuel (fo pos) pos,
      pos < x ∧ x ≤ n := by
  induction fuel with
  | zero => intro pos x hx; simp [boundList] at hx
  | succ fuel ih =>
    intro pos x hx
    rw [boundList] at hx
    by_cases hg : pos < n ∧ fo pos ≠ last_el
    · rw [if_pos hg] at hx
      have hep : pos < groupEnd fo n (fo pos) n pos :=
        groupEnd_gt (fo pos) (by omega) hg.1 rfl
      have hen : groupEnd fo n (fo pos) n pos ≤ n :=
        groupEnd_le (fo pos) n (le_of_lt hg.1)
      by_cases hn : groupEnd fo n (fo pos) n pos = n
      · rw [if_pos hn] at hx
        simp at hx
        omega
      · rw [if_neg hn] at hx
        rcases List.mem_cons.mp hx with h | h
        · omega
        · have := ih (groupEnd fo n (fo pos) n pos) x h
          omega
    · rw [if_neg hg] at hx
      simp at hx

theorem boundList_lt (fuel : ℕ) :
    ∀ (pos : ℕ), ∀ x ∈ boundList fo n (fo (n - 1)) fuel (fo pos) pos,
      pos < x ∧ x < n := by
  induction fuel with
  | zero => intro pos x hx; simp [boundList] at hx
  | succ fuel ih =>
    intro pos x hx
    rw [boundList] at hx
    by_cases hg : pos < n ∧ fo pos ≠ fo (n - 1)
    · rw [if_pos hg] at hx
      have hep : pos < groupEnd fo n (fo pos) n pos :=
        groupEnd_gt (fo pos) (by omega) hg.1 rfl
      have hen : groupEnd fo n (fo pos) n pos ≤ n :=
        groupEnd_le (fo pos) n (le_of_lt hg.1)
      by_cases hn : groupEnd fo n (fo pos) n pos = n
      · exfalso
        have hlast : fo (n - 1) = fo pos :=
          groupEnd_mem (fo pos) n (show pos ≤ n - 1 by omega)
            (show n - 1 < groupEnd fo n (fo pos) n pos by omega)
        exact hg.2 hlast.symm
      · rw [if_neg hn] at hx
        rcases List.mem_cons.mp hx with h | h
        · omega
        · have := ih (groupEnd fo n (fo pos) n pos) x h
          omega
    · rw [if_neg hg] at hx
      simp at hx

/-- What the outer loop computes, in closed form: the candidate list is the
boundary list mapped through `candFrom`, and the returned record is the
strict-improvement fold of `updateBest` over those candidates. -/
theorem scanLoop_eq (last_el : α) (fuel : ℕ) :
    ∀ (pos nl nr : ℕ) (s : S) (params : SplitRecord α),
      scanLoop step evalC fo n last_el fuel (fo pos) ⟨pos, nl, nr, s⟩ params =
        (((boundList fo n last_el fuel (fo pos) pos).map
            (candFrom step evalC fo pos nl nr s)).foldl updateBest params,
         (boundList fo n last_el fuel (fo pos) pos).map
            (candFrom step evalC fo pos nl nr s)) := by
  induction fuel with
  | zero => intro pos nl nr s params; simp [scanLoop, boundList]
  | succ fuel ih =>
    intro pos nl nr s params
    rw [scanLoop, boundList]
    by_cases hg : pos < n ∧ fo pos ≠ last_el
    · rw [if_pos (show (⟨pos, nl, nr, s⟩ : ScanSt S).next_pos < n ∧ fo pos ≠ last_el
          from hg), if_pos hg]
      have hep : pos < groupEnd fo n (fo pos) n pos :=
        groupEnd_gt (fo pos) (by omega) hg.1 rfl
      have hen : groupEnd fo n (fo pos) n pos ≤ n :=
        groupEnd_le (fo pos) n (le_of_lt hg.1)
      have hfo : fo (groupEnd fo n (fo pos) n pos - 1) = fo pos :=
        groupEnd_mem (fo pos) n (show pos ≤ groupEnd fo n (fo pos) n pos - 1 by omega)
          (show groupEnd fo n (fo pos) n pos - 1 < groupEnd fo n (fo pos) n pos by omega)
      simp only [moveGroup_eq]
      have hcand : (⟨nl + (groupEnd fo n (fo pos) n pos - pos),
          nr - (groupEnd fo n (fo pos) n pos - pos),
          foldSteps step pos (groupEnd fo n (fo pos) n pos) s,
          (evalC (foldSteps step pos (groupEnd fo n (fo pos) n pos) s)
            (nl + (groupEnd fo n (fo pos) n pos - pos))
            (nr - (groupEnd fo n (fo pos) n pos - pos))).1,
          (evalC (foldSteps step pos (groupEnd fo n (fo pos) n pos) s)
            (nl + (groupEnd fo n (fo pos) n pos - pos))
            (nr - (groupEnd fo n (fo pos) n pos - pos))).2.1,
          (1 / 2 : α) * (fo pos + fo (groupEnd fo n (fo pos) n pos)),
          (evalC (foldSteps step pos (groupEnd fo n (fo pos) n pos) s)
            (nl + (groupEnd fo n (fo pos) n pos - pos))
            (nr - (groupEnd fo n (fo pos) n pos - pos))).2.2⟩ : Cand α S) =
          candFrom step evalC fo pos nl nr s (groupEnd fo n (fo pos) n pos) := by
        simp only [candFrom, hfo]
      by_cases hn : groupEnd fo n (fo pos) n pos = n
      · simp only [if_pos hn, List.map_cons, List.map_nil, List.foldl_cons,
          List.foldl_nil, hcand]
      · simp only [if_neg hn]
        have hmap : (boundList fo n last_el fuel (fo (groupEnd fo n (fo pos) n pos))
              (groupEnd fo n (fo pos) n pos)).map
                (candFrom step evalC fo (groupEnd fo n (fo pos) n pos)
                  (nl + (groupEnd fo n (fo pos) n pos - pos))
                  (nr - (groupEnd fo n (fo pos) n pos - pos))
                  (foldSteps step pos (groupEnd fo n (fo pos) n pos) s)) =
            (boundList fo n last_el fuel (fo (groupEnd fo n (fo pos) n pos))
              (groupEnd fo n (fo pos) n pos)).map
                (candFrom step evalC fo pos nl nr s) := by
          apply List.map_congr_left
          intro x hx
          have hx2 := boundList_gt last_el fuel (groupEnd fo n (fo pos) n pos) x hx
          simp only [candFrom]
          have h1 : nl + (groupEnd fo n (fo pos) n pos - pos) +
              (x - groupEnd fo n (fo pos) n pos) = nl + (x - pos) := by omega
          have h2 : nr - (groupEnd fo n (fo pos) n pos - pos) -
              (x - groupEnd fo n (fo pos) n pos) = nr - (x - pos) := by omega
          rw [h1, h2, foldSteps_trans (le_of_lt hep) (le_of_lt hx2.1)]
        rw [ih]
        simp only [List.map_cons, List.foldl_cons, hmap, hcand]
    · rw [if_neg (show ¬((⟨pos, nl, nr, s⟩ : ScanSt S).next_pos < n ∧ fo pos ≠ last_el)
          from hg), if_neg hg]
      simp

/-- A whole scan, in closed form: the candidates are `candAt` at each
boundary of `scanBounds`, and the result record is the strict-improvement
fold over them starting from the initial record `{0, w, f[o[0]], 0}`. -/
theorem runScan_eq (step : ℕ → S → S) (evalC : S → ℕ → ℕ → α × α × α)
    (fo : ℕ → α) (n : ℕ) (init_acc : S) (w : α) :
    runScan step evalC fo n init_acc w =
      (((scanBounds fo n).map (candAt step evalC fo n init_acc)).foldl updateBest
        ⟨0, w, fo 0, 0⟩,
       (scanBounds fo n).map (candAt step evalC fo n init_acc)) := by
  unfold runScan scanBounds
  rw [scanLoop_eq (fo (n - 1)) n 0 0 n init_acc ⟨0, w, fo 0, 0⟩]
  have h : candFrom step evalC fo 0 0 n init_acc = candAt step evalC fo n init_acc := by
    funext e
    simp [candFrom, candAt]
  rw [h]

/-- Every boundary of a whole scan is a proper cut: at least one sample on
each side. -/
theorem scanBounds_mem {x : ℕ} (hx : x ∈ scanBounds fo n) : 0 < x ∧ x < n :=
  boundList_lt n 0 x hx

end Characterize

/-! ## List access helpers -/

section ListHelpers

variable {β : Type}

theorem getD_set_eq (l : List β) (i : ℕ) (v d : β) (h : i < l.length) :
    (l.set i v).getD i d = v := by
  simp [List.getD_eq_getElem?_getD, List.getElem?_set_self h]

theorem getD_set_ne (l : List β) {i j : ℕ} (v d : β) (h : i ≠ j) :
    (l.set i v).getD j d = l.getD j d := by
  simp [List.getD_eq_getElem?_getD, List.getElem?_set_ne h]

theorem getD_of_length_le {l : List β} {j : ℕ} (d : β) (h : l.length ≤ j) :
    l.getD j d = d := by
  simp [List.getD_eq_getElem?_getD, List.getElem?_eq_none h]

theorem getD_replicate (k j : ℕ) (c : β) : (List.replicate k c).getD j c = c := by
  by_cases h : j < k
  · simp [List.getD_eq_getElem?_getD, List.getElem?_replicate_of_lt h]
  · simp [List.getD_eq_getElem?_getD, List.getElem?_replicate, h]

end ListHelpers

/-! ## Histogram and sum-vector arithmetic -/

section StatHelpers

variable {α : Type} [LinearOrderedField α]

theorem hist_add_length (a : List α) (c : ℕ) : (hist_add a c).length = a.length :=
  List.length_set ..

theorem hist_sub_length (a : List α) (c : ℕ) : (hist_sub a c).length = a.length :=
  List.length_set ..

/-- Moving one sample between histograms preserves the per-class sum. -/
theorem hist_add_sub_pointwise (a b : List α) (c j : ℕ) (hab : a.length = b.length) :
    (hist_add a c).getD j 0 + (hist_sub b c).getD j 0 = a.getD j 0 + b.getD j 0 := by
  by_cases hcj : c = j
  · subst hcj
    by_cases hl : c < a.length
    · rw [hist_add, hist_sub, getD_set_eq a c _ 0 hl, getD_set_eq b c _ 0 (hab ▸ hl)]
      ring
    · rw [hist_add, hist_sub, List.set_eq_of_length_le (Nat.le_of_not_lt hl),
        List.set_eq_of_length_le (hab ▸ Nat.le_of_not_lt hl)]
  · rw [hist_add, hist_sub, getD_set_ne a _ 0 hcj, getD_set_ne b _ 0 hcj]

theorem add_sum_vec_length (sv t : List α) : (add_sum_vec sv t).length = sv.length := by
  induction sv generalizing t with
  | nil => cases t <;> rfl
  | cons a sv ih => cases t with
    | nil => rfl
    | cons b t => simp [add_sum_vec, ih]

theorem sub_sum_vec_length (sv t : List α) : (sub_sum_vec sv t).length = sv.length := by
  induction sv generalizing t with
  | nil => cases t <;> rfl
  | cons a sv ih => cases t with
    | nil => rfl
    | cons b t => simp [sub_sum_vec, ih]

/-- Moving one target vector between partitions preserves the per-output sum. -/
theorem add_sub_vec_pointwise (l r t : List α) (j : ℕ) (h : l.length = r.length) :
    (add_sum_vec l t).getD j 0 + (sub_sum_vec r t).getD j 0 =
      l.getD j 0 + r.getD j 0 := by
  induction t generalizing l r j with
  | nil => simp [add_sum_vec, sub_sum_vec]
  | cons c t ih =>
    cases l with
    | nil =>
      cases r with
      | nil => simp [add_sum_vec, sub_sum_vec]
      | cons b r => exact absurd h (by simp)
    | cons a l =>
      cases r with
      | nil => exact absurd h (by simp)
      | cons b r =>
        cases j with
        | zero =>
          simp only [add_sum_vec, sub_sum_vec, List.getD_cons_zero]
          ring
        | succ j =>
          simp only [add_sum_vec, sub_sum_vec, List.getD_cons_succ]
          exact ih l r j (by simpa using h)

end StatHelpers

/-! ## The strict-improvement fold -/

section FoldBest

variable {α S : Type} [LinearOrderedField α]

theorem updateBest_gain_le (p : SplitRecord α) (c : Cand α S) :
    p.gain ≤ (updateBest p c).gain := by
  unfold updateBest
  split
  · next h => exact le_of_lt (by simpa [recOf] using h)
  · exact le_refl _

theorem updateBest_gain_ge (p : SplitRecord α) (c : Cand α S) :
    c.gain ≤ (updateBest p c).gain := by
  unfold updateBest
  split
  · exact le_refl _
  · next h => exact le_of_not_lt h

theorem foldl_updateBest_init_le (l : List (Cand α S)) (init : SplitRecord α) :
    init.gain ≤ (l.foldl updateBest init).gain := by
  induction l generalizing init with
  | nil => exact le_refl _
  | cons c t ih =>
    exact le_trans (updateBest_gain_le init c) (ih (updateBest init c))

theorem foldl_updateBest_le (l : List (Cand α S)) (init : SplitRecord α) :
    ∀ c ∈ l, c.gain ≤ (l.foldl updateBest init).gain := by
  induction l generalizing init with
  | nil => intro c hc; simp at hc
  | cons d t ih =>
    intro c hc
    rcases List.mem_cons.mp hc with h | h
    · subst h
      exact le_trans (updateBest_gain_ge init c) (foldl_updateBest_init_le t _)
    · exact ih (updateBest init d) c h

/-- The strict-improvement fold either keeps the initial record (when no
candidate strictly beats it) or returns the *first* candidate attaining a
gain strictly above the initial one that no earlier candidate matches. -/
theorem foldl_updateBest_split (l : List (Cand α S)) (init : SplitRecord α) :
    (l.foldl updateBest init = init ∧ ∀ c ∈ l, c.gain ≤ init.gain) ∨
    ∃ pre c post, l = pre ++ c :: post ∧ l.foldl updateBest init = recOf c ∧
      init.gain < c.gain ∧ ∀ d ∈ pre, d.gain < c.gain := by
  induction l generalizing init with
  | nil => exact Or.inl ⟨rfl, by simp⟩
  | cons c t ih =>
    by_cases hc : c.gain > init.gain
    · have hupd : updateBest init c = recOf c := by simp [updateBest, hc]
      rcases ih (updateBest init c) with ⟨h1, h2⟩ | ⟨pre, c', post, he, hr, hgt, hall⟩
      · refine Or.inr ⟨[], c, t, by simp, ?_, hc, by simp⟩
        simpa [hupd] using h1
      · refine Or.inr ⟨c :: pre, c', post, by simp [he], by simpa using hr, ?_, ?_⟩
        · exact lt_trans hc (by simpa [hupd, recOf] using hgt)
        · intro d hd
          rcases List.mem_cons.mp hd with h | h
          · subst h; simpa [hupd, recOf] using hgt
          · exact hall d h
    · have hupd : updateBest init c = init := by simp [updateBest, hc]
      rcases ih (updateBest init c) with ⟨h1, h2⟩ | ⟨pre, c', post, he, hr, hgt, hall⟩
      · refine Or.inl ⟨by simpa [hupd] using h1, ?_⟩
        intro d hd
        rcases List.mem_cons.mp hd with h | h
        · subst h; exact le_of_not_lt hc
        · simpa [hupd] using h2 d h
      · refine Or.inr ⟨c :: pre, c', post, by simp [he], by simpa [hupd] using hr,
          by simpa [hupd] using hgt, ?_⟩
        intro d hd
        rcases List.mem_cons.mp hd with h | h
        · subst h
          exact lt_of_le_of_lt (le_of_not_lt hc) (by simpa [hupd] using hgt)
        · exact hall d h

end FoldBest

/-! ## Closed forms for the accumulated statistics of each scanner -/

section ScannerStates

variable {α : Type} [LinearOrderedField α] [DecidableEq α]

theorem foldl_hist_add_length (f : ℕ → ℕ) (L : List ℕ) (init : List α) :
    (L.foldl (fun h i => hist_add h (f i)) init).length = init.length := by
  induction L generalizing init with
  | nil => rfl
  | cons a L ih => rw [List.foldl_cons, ih, hist_add_length]

theorem buildHist_length (o y : List ℕ) (n k : ℕ) :
    (buildHist (α := α) o y n k).length = k := by
  unfold buildHist
  rw [foldl_hist_add_length (fun i => y.getD (o.getD i 0) 0) (List.range n)]
  exact List.length_replicate ..

theorem clsFold_lengths (o y : List ℕ) (n k p : ℕ) :
    (foldSteps (clsStep (α := α) o y) 0 p
      (List.replicate k 0, buildHist o y n k)).1.length = k ∧
    (foldSteps (clsStep (α := α) o y) 0 p
      (List.replicate k 0, buildHist o y n k)).2.length = k := by
  induction p with
  | zero =>
    rw [foldSteps_self]
    exact ⟨List.length_replicate .., buildHist_length o y n k⟩
  | succ p ih =>
    rw [foldSteps_concat (Nat.zero_le p)]
    simp only [clsStep, hist_add_length, hist_sub_length]
    exact ih

/-- Partition invariant of the classification scan: after any number of
moved samples, left histogram + right histogram = whole-node histogram,
class by class. -/
theorem cls_partition (o y : List ℕ) (n k j p : ℕ) :
    (foldSteps (clsStep (α := α) o y) 0 p
      (List.replicate k 0, buildHist o y n k)).1.getD j 0 +
    (foldSteps (clsStep (α := α) o y) 0 p
      (List.replicate k 0, buildHist o y n k)).2.getD j 0 =
      (buildHist (α := α) o y n k).getD j 0 := by
  induction p with
  | zero =>
    rw [foldSteps_self]
    simp [getD_replicate]
  | succ p ih =>
    rw [foldSteps_concat (Nat.zero_le p)]
    simp only [clsStep]
    rw [hist_add_sub_pointwise _ _ _ j (by
      rw [(clsFold_lengths o y n k p).1, (clsFold_lengths o y n k p).2])]
    exact ih

theorem foldl_add_sum_vec_length (g : ℕ → List α) (L : List ℕ) (init : List α) :
    (L.foldl (fun sv i => add_sum_vec sv (g i)) init).length = init.length := by
  induction L generalizing init with
  | nil => rfl
  | cons a L ih => rw [List.foldl_cons, ih, add_sum_vec_length]

theorem regFold_lengths (o : List ℕ) (y : List α) (n n_outputs p : ℕ) :
    (foldSteps (regStep o) 0 p (reg_init o y n n_outputs)).1.2.length = n_outputs ∧
    (foldSteps (regStep o) 0 p (reg_init o y n n_outputs)).2.2.length = n_outputs := by
  induction p with
  | zero =>
    rw [foldSteps_self]
    refine ⟨List.length_replicate .., ?_⟩
    simp only [reg_init]
    rw [foldl_add_sum_vec_length (fun i => targetRow y n_outputs (o.getD i 0))]
    exact List.length_replicate ..
  | succ p ih =>
    rw [foldSteps_concat (Nat.zero_le p)]
    simp only [regStep, add_sum_vec_length, sub_sum_vec_length]
    exact ih

/-- Partition invariant of the regression scan: after any number of moved
samples, left sum-vector + right sum-vector = whole-node sum-vector,
output dimension by output dimension. -/
theorem reg_partition (o : List ℕ) (y : List α) (n n_outputs j p : ℕ) :
    (foldSteps (regStep o) 0 p (reg_init o y n n_outputs)).1.2.getD j 0 +
    (foldSteps (regStep o) 0 p (reg_init o y n n_outputs)).2.2.getD j 0 =
      (reg_init o y n n_outputs).2.2.getD j 0 := by
  induction p with
  | zero =>
    rw [foldSteps_self]
    show (List.replicate n_outputs (0 : α)).getD j 0 + _ = _
    rw [getD_replicate, zero_add]
  | succ p ih =>
    rw [foldSteps_concat (Nat.zero_le p)]
    simp only [regStep]
    rw [add_sub_vec_pointwise _ _ _ j (by
      rw [(regFold_lengths o y n n_outputs p).1, (regFold_lengths o y n n_outputs p).2])]
    exact ih

/-- Closed form of the gradient-boosted accumulator: the sums of the
gradients and hessians of the first `p` samples in scan order. -/
theorem gradFold_eq (o : List ℕ) (g h : List α) (p : ℕ) :
    foldSteps (gradStep o g h) 0 p ((0 : α), (0 : α)) =
      (((List.range p).map (fun i => g.getD (o.getD i 0) 0)).sum,
       ((List.range p).map (fun i => h.getD (o.getD i 0) 0)).sum) := by
  induction p with
  | zero => simp [foldSteps_self]
  | succ p ih =>
    rw [foldSteps_concat (Nat.zero_le p), ih]
    simp [gradStep, List.range_succ]

end ScannerStates

/-! ## Generic consequences for a whole scan -/

section ScanFacts

variable {α S : Type} [LinearOrderedField α] [DecidableEq α]
variable (step : ℕ → S → S) (evalC : S → ℕ → ℕ → α × α × α) (fo : ℕ → α) (n : ℕ)
variable (init_acc : S) (w : α)

theorem runScan_gain_nonneg : 0 ≤ (runScan step evalC fo n init_acc w).1.gain := by
  rw [runScan_eq]
  exact foldl_updateBest_init_le _ ⟨0, w, fo 0, 0⟩

theorem runScan_gain_ge :
    ∀ c ∈ (runScan step evalC fo n init_acc w).2,
      c.gain ≤ (runScan step evalC fo n init_acc w).1.gain := by
  rw [runScan_eq]
  exact foldl_updateBest_le _ ⟨0, w, fo 0, 0⟩

theorem runScan_first_max :
    ((runScan step evalC fo n init_acc w).1 = ⟨0, w, fo 0, 0⟩ ∧
      ∀ c ∈ (runScan step evalC fo n init_acc w).2, c.gain ≤ 0) ∨
    ∃ pre c post, (runScan step evalC fo n init_acc w).2 = pre ++ c :: post ∧
      (runScan step evalC fo n init_acc w).1 = recOf c ∧ 0 < c.gain ∧
      ∀ d ∈ pre, d.gain < c.gain := by
  rw [runScan_eq]
  exact foldl_updateBest_split _ ⟨0, w, fo 0, 0⟩

theorem runScan_counts :
    ∀ c ∈ (runScan step evalC fo n init_acc w).2,
      1 ≤ c.n_l ∧ 1 ≤ c.n_r ∧ c.n_l + c.n_r = n ∧
        c.acc = foldSteps step 0 c.n_l init_acc := by
  rw [runScan_eq]
  intro c hc
  obtain ⟨e, he, rfl⟩ := List.mem_map.mp hc
  have hb := scanBounds_mem he
  refine ⟨by simpa [candAt] using hb.1, ?_, ?_, ?_⟩
  · show 1 ≤ n - e
    omega
  · show e + (n - e) = n
    omega
  · rfl

/-- A scan on a node whose samples all share one feature value evaluates no
candidate and returns the initial record unchanged. -/
theorem runScan_const (hn : 1 ≤ n) (hconst : fo 0 = fo (n - 1)) :
    runScan step evalC fo n init_acc w = (⟨0, w, fo 0, 0⟩, []) := by
  unfold runScan
  obtain ⟨m, rfl⟩ : ∃ m, n = m + 1 := ⟨n - 1, by omega⟩
  rw [scanLoop, if_neg]
  intro hcontra
  exact hcontra.2 hconst

end ScanFacts

/-! ## Claim theorems -/

section Claims

/-- C4: for every input in which all samples share one feature value, the
split scanners evaluate no candidate threshold and return gain 0, threshold
equal to that single value, right impurity equal to the supplied whole-node
impurity, and left impurity 0 (the gradient-boosted scanner, whose record
has no impurity slots, returns threshold = that value and gain 0). -/
theorem C4_all_equal_features (criterion : String) (w : ℝ) (o : List ℕ)
    (f : List ℝ) (y : List ℕ) (k : ℕ) (yr g h : List ℝ) (n_outputs : ℕ)
    (sg sh lam : ℝ) (v : ℝ) (hn : 1 ≤ o.length)
    (hperm : o.Perm (List.range o.length))
    (hv : ∀ i, i < o.length → f.getD i 0 = v) :
    find_split_params_cls criterion w o f y k = ⟨0, w, v, 0⟩ ∧
    cls_candidates criterion w o f y k = [] ∧
    find_split_params_reg criterion w o f yr n_outputs = ⟨0, w, v, 0⟩ ∧
    reg_candidates criterion w o f yr n_outputs = [] ∧
    find_split_params_grad_reg o f g h sg sh lam = (v, 0) ∧
    grad_candidates o f g h sg sh lam = [] := by
  have hidx : ∀ i, i < o.length → foAt o f i = v := by
    intro i hi
    unfold foAt
    apply hv
    have hmem : o.getD i 0 ∈ o := by
      rw [List.getD_eq_getElem?_getD, List.getElem?_eq_getElem hi]
      exact List.getElem_mem hi
    exact List.mem_range.mp (hperm.mem_iff.mp hmem)
  have h0 : foAt o f 0 = v := hidx 0 (by omega)
  have hlast : foAt o f (o.length - 1) = v := hidx _ (by omega)
  have hconst : foAt o f 0 = foAt o f (o.length - 1) := by rw [h0, hlast]
  have hcls := runScan_const (clsStep (α := ℝ) o y)
    (clsEval (fun hst m => calc_impurity_cls criterion hst m k) w o.length)
    (foAt o f) o.length
    (List.replicate k 0, buildHist o y o.length k) w hn hconst
  have hreg := runScan_const (regStep (α := ℝ) o)
    (regEval criterion w o.length) (foAt o f) o.length
    (reg_init o yr o.length n_outputs) w hn hconst
  have hgrad := runScan_const (gradStep (α := ℝ) o g h)
    (gradEval sg sh lam) (foAt o f) o.length ((0 : ℝ), (0 : ℝ)) 0 hn hconst
  refine ⟨?_, ?_, ?_, ?_, ?_, ?_⟩
  · show (cls_scan criterion w o f y k).1 = _
    rw [cls_scan, hcls, h0]
  · show (cls_scan criterion w o f y k).2 = _
    rw [cls_scan, hcls]
  · show (reg_scan criterion w o f yr n_outputs).1 = _
    rw [reg_scan, hreg, h0]
  · show (reg_scan criterion w o f yr n_outputs).2 = _
    rw [reg_scan, hreg]
  · show ((grad_scan o f g h sg sh lam).1.threshold, (grad_scan o f g h sg sh lam).1.gain) = _
    rw [grad_scan, hgrad, h0]
  · show (grad_scan o f g h sg sh lam).2 = _
    rw [grad_scan, hgrad]

/-- C8: under the validity preconditions, whenever a split scanner computes
a gain both partitions are non-empty (`1 ≤ n_l` and `1 ≤ n_r`, with
`n_l + n_r = n`), so the per-partition divisions are never by a zero
partition size and the read position `next_pos = n_l` stays below `n`. -/
theorem C8_partitions_nonempty (criterion : String) (w : ℝ) (o : List ℕ)
    (f : List ℝ) (y : List ℕ) (k : ℕ) (yr g h : List ℝ) (n_outputs : ℕ)
    (sg sh lam : ℝ) (hn : 1 ≤ o.length)
    (hperm : o.Perm (List.range o.length))
    (hsort : ∀ i, i + 1 < o.length → foAt o f i ≤ foAt o f (i + 1)) :
    (∀ c ∈ cls_candidates criterion w o f y k,
      1 ≤ c.n_l ∧ 1 ≤ c.n_r ∧ c.n_l + c.n_r = o.length ∧ c.n_l < o.length) ∧
    (∀ c ∈ reg_candidates criterion w o f yr n_outputs,
      1 ≤ c.n_l ∧ 1 ≤ c.n_r ∧ c.n_l + c.n_r = o.length ∧ c.n_l < o.length) ∧
    (∀ c ∈ grad_candidates o f g h sg sh lam,
      1 ≤ c.n_l ∧ 1 ≤ c.n_r ∧ c.n_l + c.n_r = o.length ∧ c.n_l < o.length) := by
  refine ⟨?_, ?_, ?_⟩
  · intro c hc
    have := runScan_counts _ _ _ _ _ _ c hc
    omega
  · intro c hc
    have := runScan_counts _ _ _ _ _ _ c hc
    omega
  · intro c hc
    have := runScan_counts _ _ _ _ _ _ c hc
    omega

/-- C1: for every valid input, the returned record's gain is at least the
gain of every candidate evaluated during the scan and at least 0; the best
record is updated only on strict improvement, so the returned record is
either the initial record (no candidate strictly positive) or the earliest
candidate attaining the maximal gain, every earlier candidate having a
strictly smaller gain. Stated for all three scanners. -/
theorem C1_best_gain_dominates (criterion : String) (w : ℝ) (o : List ℕ)
    (f : List ℝ) (y : List ℕ) (k : ℕ) (yr g h : List ℝ) (n_outputs : ℕ)
    (sg sh lam : ℝ) (hn : 1 ≤ o.length)
    (hperm : o.Perm (List.range o.length))
    (hsort : ∀ i, i + 1 < o.length → foAt o f i ≤ foAt o f (i + 1)) :
    (0 ≤ (find_split_params_cls criterion w o f y k).gain ∧
     (∀ c ∈ cls_candidates criterion w o f y k,
        c.gain ≤ (find_split_params_cls criterion w o f y k).gain) ∧
     ((find_split_params_cls criterion w o f y k = ⟨0, w, foAt o f 0, 0⟩ ∧
        ∀ c ∈ cls_candidates criterion w o f y k, c.gain ≤ 0) ∨
      ∃ pre c post, cls_candidates criterion w o f y k = pre ++ c :: post ∧
        find_split_params_cls criterion w o f y k = recOf c ∧ 0 < c.gain ∧
        ∀ d ∈ pre, d.gain < c.gain)) ∧
    (0 ≤ (find_split_params_reg criterion w o f yr n_outputs).gain ∧
     (∀ c ∈ reg_candidates criterion w o f yr n_outputs,
        c.gain ≤ (find_split_params_reg criterion w o f yr n_outputs).gain) ∧
     ((find_split_params_reg criterion w o f yr n_outputs = ⟨0, w, foAt o f 0, 0⟩ ∧
        ∀ c ∈ reg_candidates criterion w o f yr n_outputs, c.gain ≤ 0) ∨
      ∃ pre c post, reg_candidates criterion w o f yr n_outputs = pre ++ c :: post ∧
        find_split_params_reg criterion w o f yr n_outputs = recOf c ∧ 0 < c.gain ∧
        ∀ d ∈ pre, d.gain < c.gain)) ∧
    (0 ≤ (find_split_params_grad_reg o f g h sg sh lam).2 ∧
     (∀ c ∈ grad_candidates o f g h sg sh lam,
        c.gain ≤ (find_split_params_grad_reg o f g h sg sh lam).2) ∧
     (((grad_scan o f g h sg sh lam).1 = ⟨0, 0, foAt o f 0, 0⟩ ∧
        ∀ c ∈ grad_candidates o f g h sg sh lam, c.gain ≤ 0) ∨
      ∃ pre c post, grad_candidates o f g h sg sh lam = pre ++ c :: post ∧
        (grad_scan o f g h sg sh lam).1 = recOf c ∧ 0 < c.gain ∧
        ∀ d ∈ pre, d.gain < c.gain)) := by
  refine ⟨⟨?_, ?_, ?_⟩, ⟨?_, ?_, ?_⟩, ⟨?_, ?_, ?_⟩⟩
  · exact runScan_gain_nonneg _ _ _ _ _ _
  · exact runScan_gain_ge _ _ _ _ _ _
  · exact runScan_first_max _ _ _ _ _ _
  · exact runScan_gain_nonneg _ _ _ _ _ _
  · exact runScan_gain_ge _ _ _ _ _ _
  · exact runScan_first_max _ _ _ _ _ _
  · exact runScan_gain_nonneg _ _ _ _ _ _
  · exact runScan_gain_ge _ _ _ _ _ _
  · exact runScan_first_max _ _ _ _ _ _

/-- C2: at every step of a scan the left and right accumulated statistics
partition the whole node's statistics: the counts add up to `n`, the class
histograms add up to the whole-node histogram (classification), the
sum-vectors add up to the whole-node sum-vector (regression), and the
gradient/hessian sums add up to the node totals (gradient-boosted, where
the right sums are formed as total minus left). Stated both for the states
at which candidates are evaluated and for the state after any number `p` of
moved samples. -/
theorem C2_partition_invariant (criterion : String) (w : ℝ) (o : List ℕ)
    (f : List ℝ) (y : List ℕ) (k : ℕ) (yr g h : List ℝ) (n_outputs : ℕ)
    (sg sh lam : ℝ) :
    (∀ c ∈ cls_candidates criterion w o f y k,
      c.n_l + c.n_r = o.length ∧
      ∀ j, c.acc.1.getD j 0 + c.acc.2.getD j 0 =
        (buildHist (α := ℝ) o y o.length k).getD j 0) ∧
    (∀ p j,
      (foldSteps (clsStep (α := ℝ) o y) 0 p
        (List.replicate k 0, buildHist o y o.length k)).1.getD j 0 +
      (foldSteps (clsStep (α := ℝ) o y) 0 p
        (List.replicate k 0, buildHist o y o.length k)).2.getD j 0 =
        (buildHist (α := ℝ) o y o.length k).getD j 0) ∧
    (∀ c ∈ reg_candidates criterion w o f yr n_outputs,
      c.n_l + c.n_r = o.length ∧
      ∀ j, c.acc.1.2.getD j 0 + c.acc.2.2.getD j 0 =
        (reg_init o yr o.length n_outputs).2.2.getD j 0) ∧
    (∀ p j,
      (foldSteps (regStep (α := ℝ) o) 0 p (reg_init o yr o.length n_outputs)).1.2.getD j 0 +
      (foldSteps (regStep (α := ℝ) o) 0 p (reg_init o yr o.length n_outputs)).2.2.getD j 0 =
        (reg_init o yr o.length n_outputs).2.2.getD j 0) ∧
    (∀ c ∈ grad_candidates o f g h sg sh lam,
      c.acc.1 + (sg - c.acc.1) = sg ∧ c.acc.2 + (sh - c.acc.2) = sh) := by
  refine ⟨?_, ?_, ?_, ?_, ?_⟩
  · intro c hc
    have hcount := runScan_counts _ _ _ _ _ _ c hc
    refine ⟨by omega, ?_⟩
    intro j
    rw [hcount.2.2.2]
    exact cls_partition o y o.length k j c.n_l
  · intro p j
    exact cls_partition o y o.length k j p
  · intro c hc
    have hcount := runScan_counts _ _ _ _ _ _ c hc
    refine ⟨by omega, ?_⟩
    intro j
    rw [hcount.2.2.2]
    exact reg_partition o yr o.length n_outputs j c.n_l
  · intro p j
    exact reg_partition o yr o.length n_outputs j p
  · intro c hc
    exact ⟨by ring, by ring⟩

/-- C6: the candidates of the gradient-boosted scan, in closed form: at
each boundary `e` the left statistics are the sums of the gradients and
hessians of the `e` samples moved to the left, and the gain is
`L_g²/(L_h+λ) + R_g²/(R_h+λ) − S_g²/(S_h+λ)` with `R = S − L` formed from
the supplied node totals. -/
theorem C6_grad_gain_formula (o : List ℕ) (f g h : List ℝ) (sg sh lam : ℝ) :
    grad_candidates o f g h sg sh lam =
      (scanBounds (foAt o f) o.length).map (fun e =>
        ⟨e, o.length - e,
         (((List.range e).map (fun i => g.getD (o.getD i 0) 0)).sum,
          ((List.range e).map (fun i => h.getD (o.getD i 0) 0)).sum),
         0, 0, (1 / 2 : ℝ) * (foAt o f (e - 1) + foAt o f e),
         ((List.range e).map (fun i => g.getD (o.getD i 0) 0)).sum *
             ((List.range e).map (fun i => g.getD (o.getD i 0) 0)).sum /
               (((List.range e).map (fun i => h.getD (o.getD i 0) 0)).sum + lam) +
           (sg - ((List.range e).map (fun i => g.getD (o.getD i 0) 0)).sum) *
             (sg - ((List.range e).map (fun i => g.getD (o.getD i 0) 0)).sum) /
               ((sh - ((List.range e).map (fun i => h.getD (o.getD i 0) 0)).sum) + lam) -
           sg * sg / (sh + lam)⟩) := by
  show (runScan (gradStep o g h) (gradEval sg sh lam) (foAt o f) o.length
    ((0 : ℝ), (0 : ℝ)) 0).2 = _
  rw [runScan_eq]
  apply List.map_congr_left
  intro e he
  simp only [candAt, gradEval, gradFold_eq]

theorem list_range_map_sum (f : ℕ → ℝ) (k : ℕ) :
    ((List.range k).map f).sum = ∑ i ∈ Finset.range k, f i := by
  induction k with
  | zero => simp
  | succ k ih =>
    rw [List.range_succ, Finset.sum_range_succ, List.map_append, List.sum_append, ih]
    simp

/-- C5: the entropy criterion evaluator returns `−Σ_c p_c · ln(p_c + 1)`
with `p_c = count_c / n` — the bounded-log variant — and this differs from
textbook Shannon entropy (witnessed at the histogram `[1, 1]` over 2
samples, where the code's value is negative and Shannon entropy positive). -/
theorem C5_entropy_bounded_log (hist : List ℝ) (n k : ℕ) (hn : 0 < n) :
    calc_entropy hist n k =
      -(∑ i ∈ Finset.range k,
        (hist.getD i 0 / (n : ℝ)) * Real.log (hist.getD i 0 / (n : ℝ) + 1)) ∧
    calc_entropy [1, 1] 2 2 ≠ shannonEntropy [1, 1] 2 2 := by
  constructor
  · rw [calc_entropy, list_range_map_sum]
  · have h1 : calc_entropy [1, 1] 2 2 = -(Real.log (3 / 2)) := by
      simp only [calc_entropy, List.range_succ, List.range_zero]
      norm_num
      ring
    have h2 : shannonEntropy [1, 1] 2 2 = -(Real.log (1 / 2)) := by
      simp only [shannonEntropy, Finset.sum_range_succ, Finset.sum_range_zero]
      norm_num
      ring
    have hl : (0 : ℝ) < Real.log (3 / 2) := Real.log_pos (by norm_num)
    have hl2 : Real.log (1 / 2) < 0 := Real.log_neg (by norm_num) (by norm_num)
    rw [h1, h2]
    intro hcontra
    nlinarith

/-- C7: an unrecognized criterion tag is not an error. Any tag other than
"entropy" makes the classification functions use the Gini criterion and
give the same result as the explicit "gini" tag; any tag other than "mae"
makes the regression functions use the MSE criterion and give the same
result as the explicit "mse" tag. -/
theorem C7_unknown_criterion_defaults (c1 c2 : String) (h1 : c1 ≠ "entropy")
    (h2 : c2 ≠ "mae") (w : ℝ) (o : List ℕ) (f : List ℝ) (y : List ℕ) (k : ℕ)
    (yl : List ℕ) (yr : List ℝ) (n_outputs : ℕ) (tv : List (List ℝ)) :
    (∀ (hst : List ℝ) (m kk : ℕ),
      calc_impurity_cls c1 hst m kk = calc_gini_coef hst m kk) ∧
    find_split_params_cls c1 w o f y k = find_split_params_cls ("gini") w o f y k ∧
    node_impurity_cls c1 yl k = node_impurity_cls ("gini") yl k ∧
    (∀ (tvs : List (List ℝ)) (sv : List ℝ),
      calc_impurity_reg c2 tvs sv = calc_impurity_reg ("mse") tvs sv) ∧
    find_split_params_reg c2 w o f yr n_outputs =
      find_split_params_reg ("mse") w o f yr n_outputs ∧
    node_impurity_reg c2 tv = node_impurity_reg ("mse") tv := by
  have hgini : ∀ (hst : List ℝ) (m kk : ℕ),
      calc_impurity_cls c1 hst m kk = calc_gini_coef hst m kk := by
    intro hst m kk
    rw [calc_impurity_cls, if_neg h1]
  have hcls : ∀ (hst : List ℝ) (m kk : ℕ),
      calc_impurity_cls c1 hst m kk = calc_impurity_cls ("gini") hst m kk := by
    intro hst m kk
    rw [hgini, calc_impurity_cls, if_neg (by decide)]
  have hreg : ∀ (tvs : List (List ℝ)) (sv : List ℝ),
      calc_impurity_reg c2 tvs sv = calc_impurity_reg ("mse") tvs sv := by
    intro tvs sv
    simp only [calc_impurity_reg]
    rw [if_neg h2, if_neg (by decide)]
  refine ⟨hgini, ?_, ?_, hreg, ?_, ?_⟩
  · have he : (fun (hst : List ℝ) (m : ℕ) => calc_impurity_cls c1 hst m k) =
        (fun (hst : List ℝ) (m : ℕ) => calc_impurity_cls ("gini") hst m k) := by
      funext hst m
      exact hcls hst m k
    show (cls_scan c1 w o f y k).1 = (cls_scan ("gini") w o f y k).1
    rw [cls_scan, cls_scan, he]
  · rw [node_impurity_cls, node_impurity_cls, hcls]
  · have he : regEval (α := ℝ) c2 w o.length = regEval ("mse") w o.length := by
      funext acc nl nr
      simp only [regEval]
      rw [hreg, hreg]
    show (reg_scan c2 w o f yr n_outputs).1 = (reg_scan ("mse") w o f yr n_outputs).1
    rw [reg_scan, reg_scan, he]
  · rw [node_impurity_reg, node_impurity_reg, hreg]

end Claims

/-! ## Histogram algebra for the cross-implementation equivalence -/

section HistAlgebra

variable {β : Type}

theorem set_getD_self (l : List β) (c : ℕ) (d : β) (hc : c < l.length) :
    l.set c (l.getD c d) = l := by
  induction l generalizing c with
  | nil => simp at hc
  | cons a l ih =>
    cases c with
    | zero => rfl
    | succ c =>
      simp only [List.set_cons_succ, List.getD_cons_succ]
      rw [ih c (by simpa using hc)]

variable {α : Type} [LinearOrderedField α]

theorem hist_sub_add_cancel (h : List α) (c : ℕ) :
    hist_sub (hist_add h c) c = h := by
  by_cases hc : c < h.length
  · unfold hist_add hist_sub
    rw [getD_set_eq h c _ 0 hc, List.set_set, add_sub_cancel_right,
      set_getD_self h c 0 hc]
  · unfold hist_add hist_sub
    rw [List.set_eq_of_length_le (Nat.le_of_not_lt hc),
      List.set_eq_of_length_le (Nat.le_of_not_lt hc)]

theorem histN_sub_add_cancel (h : List ℕ) (c : ℕ) :
    histN_sub (histN_add h c) c = h := by
  by_cases hc : c < h.length
  · unfold histN_add histN_sub
    rw [getD_set_eq h c _ 0 hc, List.set_set, Nat.add_sub_cancel,
      set_getD_self h c 0 hc]
  · unfold histN_add histN_sub
    rw [List.set_eq_of_length_le (Nat.le_of_not_lt hc),
      List.set_eq_of_length_le (Nat.le_of_not_lt hc)]

theorem hist_add_comm (h : List α) (c d : ℕ) :
    hist_add (hist_add h c) d = hist_add (hist_add h d) c := by
  by_cases hcd : c = d
  · subst hcd; rfl
  · unfold hist_add
    rw [getD_set_ne h _ 0 hcd, getD_set_ne h _ 0 (fun he => hcd he.symm),
      List.set_comm _ _ _ hcd]

theorem histN_add_comm (h : List ℕ) (c d : ℕ) :
    histN_add (histN_add h c) d = histN_add (histN_add h d) c := by
  by_cases hcd : c = d
  · subst hcd; rfl
  · unfold histN_add
    rw [getD_set_ne h _ 0 hcd, getD_set_ne h _ 0 (fun he => hcd he.symm),
      List.set_comm _ _ _ hcd]

theorem foldl_hist_add_out (L : List ℕ) (z : List α) (c : ℕ) :
    L.foldl hist_add (hist_add z c) = hist_add (L.foldl hist_add z) c := by
  induction L generalizing z with
  | nil => rfl
  | cons d L ih =>
    simp only [List.foldl_cons]
    rw [hist_add_comm z c d, ih]

theorem foldl_histN_add_out (L : List ℕ) (z : List ℕ) (c : ℕ) :
    L.foldl histN_add (histN_add z c) = histN_add (L.foldl histN_add z) c := by
  induction L generalizing z with
  | nil => rfl
  | cons d L ih =>
    simp only [List.foldl_cons]
    rw [histN_add_comm z c d, ih]

/-- Removing the samples of a prefix from the histogram of the whole list
leaves the histogram of the remaining suffix. -/
theorem foldl_hist_sub_of_append (P Q : List ℕ) (z : List α) :
    P.foldl hist_sub ((P ++ Q).foldl hist_add z) = Q.foldl hist_add z := by
  induction P generalizing z with
  | nil => rfl
  | cons c P ih =>
    simp only [List.cons_append, List.foldl_cons]
    rw [foldl_hist_add_out (P ++ Q) z c, hist_sub_add_cancel, ih]

theorem foldl_histN_sub_of_append (P Q : List ℕ) (z : List ℕ) :
    P.foldl histN_sub ((P ++ Q).foldl histN_add z) = Q.foldl histN_add z := by
  induction P generalizing z with
  | nil => rfl
  | cons c P ih =>
    simp only [List.cons_append, List.foldl_cons]
    rw [foldl_histN_add_out (P ++ Q) z c, histN_sub_add_cancel, ih]

theorem range_split (e n : ℕ) (h : e ≤ n) :
    List.range n = List.range e ++ List.range' e (n - e) := by
  have h2 : (n - e) + e = n := by omega
  rw [List.range_eq_range', List.range_eq_range', ← h2, ← List.range'_append_1]
  simp

/-- The classification accumulator pair in closed form: the left histogram
is the moved classes folded into zeros, the right histogram is the moved
classes subtracted from the initial right histogram. -/
theorem clsFold_eq (o y : List ℕ) (A B : List α) (p : ℕ) :
    foldSteps (clsStep o y) 0 p (A, B) =
      (((List.range p).map (fun i => y.getD (o.getD i 0) 0)).foldl hist_add A,
       ((List.range p).map (fun i => y.getD (o.getD i 0) 0)).foldl hist_sub B) := by
  induction p with
  | zero => simp [foldSteps_self]
  | succ p ih =>
    rw [foldSteps_concat (Nat.zero_le p), ih]
    simp only [clsStep, List.range_succ, List.map_append, List.map_cons, List.map_nil,
      List.foldl_append, List.foldl_cons, List.foldl_nil]

theorem hppFold_eq (o y : List ℕ) (A B : List ℕ) (p : ℕ) :
    foldSteps (hppStep o y) 0 p (A, B) =
      (((List.range p).map (fun i => y.getD (o.getD i 0) 0)).foldl histN_add A,
       ((List.range p).map (fun i => y.getD (o.getD i 0) 0)).foldl histN_sub B) := by
  induction p with
  | zero => simp [foldSteps_self]
  | succ p ih =>
    rw [foldSteps_concat (Nat.zero_le p), ih]
    simp only [hppStep, List.range_succ, List.map_append, List.map_cons, List.map_nil,
      List.foldl_append, List.foldl_cons, List.foldl_nil]

theorem getD_map_cast (l : List ℕ) (c : ℕ) :
    (l.map (fun x : ℕ => (x : ℝ))).getD c 0 = ((l.getD c 0 : ℕ) : ℝ) := by
  rw [List.getD_eq_getElem?_getD, List.getD_eq_getElem?_getD, List.getElem?_map]
  cases l[c]? <;> simp

theorem castHist_add (hN : List ℕ) (c : ℕ) :
    (histN_add hN c).map (fun x : ℕ => (x : ℝ)) =
      hist_add (hN.map (fun x : ℕ => (x : ℝ))) c := by
  unfold histN_add hist_add
  rw [List.map_set, getD_map_cast]
  push_cast
  rfl

theorem castHist_fold_add (L : List ℕ) (z : List ℕ) :
    (L.foldl histN_add z).map (fun x : ℕ => (x : ℝ)) =
      L.foldl hist_add (z.map (fun x : ℕ => (x : ℝ))) := by
  induction L generalizing z with
  | nil => rfl
  | cons c L ih =>
    simp only [List.foldl_cons]
    rw [ih, castHist_add]

/-- The C++ impurity on a `size_t` histogram agrees with the C impurity on
the cast histogram. -/
theorem calc_impurity_hpp_cast (criterion : String) (hN : List ℕ) (m kk : ℕ) :
    calc_impurity_hpp criterion hN m kk =
      calc_impurity_cls criterion (hN.map (fun x : ℕ => (x : ℝ))) m kk := by
  by_cases hcrit : criterion = "entropy"
  · rw [calc_impurity_hpp, if_pos hcrit, calc_impurity_cls, if_pos hcrit, calc_entropy]
    simp only [getD_map_cast]
  · rw [calc_impurity_hpp, if_neg hcrit, calc_impurity_cls, if_neg hcrit, calc_gini_coef]
    simp only [getD_map_cast]

theorem foldl_updateBest_map_congr {α S₁ S₂ : Type} [LinearOrderedField α]
    (L : List ℕ) (F₁ : ℕ → Cand α S₁) (F₂ : ℕ → Cand α S₂) (init : SplitRecord α)
    (h : ∀ e ∈ L, recOf (F₁ e) = recOf (F₂ e)) :
    (L.map F₁).foldl updateBest init = (L.map F₂).foldl updateBest init := by
  induction L generalizing init with
  | nil => rfl
  | cons e L ih =>
    simp only [List.map_cons, List.foldl_cons]
    have hre := h e (List.mem_cons_self ..)
    have hgain : (F₁ e).gain = (F₂ e).gain := congrArg SplitRecord.gain hre
    have hupd : updateBest init (F₁ e) = updateBest init (F₂ e) := by
      unfold updateBest
      rw [hgain, hre]
    rw [hupd]
    exact ih _ (fun x hx => h x (List.mem_cons_of_mem _ hx))

theorem buildHist_eq_map_fold (o y : List ℕ) (n k : ℕ) :
    buildHist (α := α) o y n k =
      ((List.range n).map (fun i => y.getD (o.getD i 0) 0)).foldl hist_add
        (List.replicate k 0) := by
  rw [buildHist]
  exact (List.foldl_map _ _ _ _).symm

theorem buildHistN_eq_map_fold (o y : List ℕ) (n k : ℕ) :
    buildHistN o y n k =
      ((List.range n).map (fun i => y.getD (o.getD i 0) 0)).foldl histN_add
        (List.replicate k 0) := by
  rw [buildHistN]
  exact (List.foldl_map _ _ _ _).symm

/-- The candidate records of the C++ (`size_t`-histogram) scan and of the
plain C (double-histogram) scan coincide at every boundary. -/
theorem hpp_cls_candAt_recOf (criterion : String) (w : ℝ) (o y : List ℕ) (k : ℕ)
    (f : List ℝ) (e : ℕ) (hle : e ≤ o.length) :
    recOf (candAt (hppStep o y)
      (clsEval (fun hst m => calc_impurity_hpp criterion hst m k) w o.length)
      (foAt o f) o.length (List.replicate k 0, buildHistN o y o.length k) e) =
    recOf (candAt (clsStep o y)
      (clsEval (fun hst m => calc_impurity_cls criterion hst m k) w o.length)
      (foAt o f) o.length (List.replicate k 0, buildHist o y o.length k) e) := by
  have hPQ : (List.range o.length).map (fun i => y.getD (o.getD i 0) 0) =
      ((List.range e).map (fun i => y.getD (o.getD i 0) 0)) ++
        ((List.range' e (o.length - e)).map (fun i => y.getD (o.getD i 0) 0)) := by
    rw [range_split e o.length hle, List.map_append]
  have hsubN : ((List.range e).map (fun i => y.getD (o.getD i 0) 0)).foldl histN_sub
      (buildHistN o y o.length k) =
      ((List.range' e (o.length - e)).map (fun i => y.getD (o.getD i 0) 0)).foldl
        histN_add (List.replicate k 0) := by
    rw [buildHistN_eq_map_fold, hPQ, foldl_histN_sub_of_append]
  have hsubR : ((List.range e).map (fun i => y.getD (o.getD i 0) 0)).foldl
      (hist_sub (α := ℝ)) (buildHist o y o.length k) =
      ((List.range' e (o.length - e)).map (fun i => y.getD (o.getD i 0) 0)).foldl
        hist_add (List.replicate k 0) := by
    rw [buildHist_eq_map_fold, hPQ, foldl_hist_sub_of_append]
  have hcast0 : (List.replicate k (0 : ℕ)).map (fun x : ℕ => (x : ℝ)) =
      List.replicate k (0 : ℝ) := by
    rw [List.map_replicate, Nat.cast_zero]
  have hcastP : ((List.range e).map (fun i => y.getD (o.getD i 0) 0)).foldl
      (hist_add (α := ℝ)) (List.replicate k 0) =
      (((List.range e).map (fun i => y.getD (o.getD i 0) 0)).foldl histN_add
        (List.replicate k 0)).map (fun x : ℕ => (x : ℝ)) := by
    rw [castHist_fold_add, hcast0]
  have hcastQ : ((List.range' e (o.length - e)).map (fun i => y.getD (o.getD i 0) 0)).foldl
      (hist_add (α := ℝ)) (List.replicate k 0) =
      (((List.range' e (o.length - e)).map (fun i => y.getD (o.getD i 0) 0)).foldl
        histN_add (List.replicate k 0)).map (fun x : ℕ => (x : ℝ)) := by
    rw [castHist_fold_add, hcast0]
  simp only [candAt, recOf, clsEval, clsFold_eq, hppFold_eq]
  rw [hsubN, hsubR, hcastP, hcastQ, ← calc_impurity_hpp_cast, ← calc_impurity_hpp_cast]

/-- C10: the three duplicated classification split scanners — the plain-C
version (`ext.c`), the C++ template version (`ext.hpp`) and the
macro-expanded double-precision version (`ext.h`) — compute the same
function: on identical inputs they return the same four-element record. -/
theorem C10_impl_equivalence (criterion : String) (w : ℝ) (o : List ℕ)
    (f : List ℝ) (y : List ℕ) (k : ℕ) :
    find_split_params_cls criterion w o f y k =
      find_split_params_hpp criterion w o f y k ∧
    find_split_params_cls criterion w o f y k =
      dfloat_find_split_cls criterion w o f y k := by
  constructor
  · show (cls_scan criterion w o f y k).1 = _
    rw [cls_scan, find_split_params_hpp, runScan_eq, runScan_eq]
    show ((scanBounds (foAt o f) o.length).map _).foldl updateBest _ =
      ((scanBounds (foAt o f) o.length).map _).foldl updateBest _
    apply foldl_updateBest_map_congr
    intro e he
    exact (hpp_cls_candAt_recOf criterion w o y k f e
      (le_of_lt (scanBounds_mem he).2)).symm
  · show (cls_scan criterion w o f y k).1 = _
    rw [cls_scan, dfloat_find_split_cls]
    have he : (fun (hst : List ℝ) (m : ℕ) => calc_impurity_cls criterion hst m k) =
        (if criterion = "entropy" then
          fun (hst : List ℝ) (m : ℕ) => calc_dfloat_entropy hst k m
        else fun (hst : List ℝ) (m : ℕ) => calc_dfloat_gini hst k m) := by
      by_cases hcrit : criterion = "entropy"
      · rw [if_pos hcrit]
        funext hst m
        rw [calc_impurity_cls, if_pos hcrit]
        rfl
      · rw [if_neg hcrit]
        funext hst m
        rw [calc_impurity_cls, if_neg hcrit]
        rfl
    rw [he]

end HistAlgebra

/-! ## Concrete runs of the scanners -/

section ConcreteRuns

set_option maxHeartbeats 2000000 in
/-- Scenario A of the spec, run on the embedded scanner: `features =
[1,2,2,3]`, `order = [0,1,2,3]`, `labels = [0,0,1,1]`, Gini, whole impurity
`1/2`.  Two candidates are evaluated (thresholds `3/2` and `5/2`, both with
gain `1/6`); the first is kept. -/
theorem eval_cls_scan_A :
    cls_scan ("gini") (1 / 2) [0, 1, 2, 3] [1, 2, 2, 3] [0, 0, 1, 1] 2 =
      (⟨0, 4 / 9, 3 / 2, 1 / 6⟩,
       [⟨1, 3, ([1, 0], [1, 2]), 0, 4 / 9, 3 / 2, 1 / 6⟩,
        ⟨3, 1, ([2, 1], [0, 1]), 4 / 9, 0, 5 / 2, 1 / 6⟩]) := by
  have hg : ∀ (hist : List ℝ) (m : ℕ),
      calc_impurity_cls ("gini") hist m 2 = calc_gini_coef hist m 2 := by
    intro hist m
    simp [calc_impurity_cls]
  norm_num [cls_scan, runScan, scanLoop, moveGroup, updateBest,
    foAt, clsStep, clsEval, buildHist, hist_add, hist_sub, hg,
    calc_gini_coef, recOf, List.range_succ, List.replicate_succ]

set_option maxHeartbeats 1000000 in
/-- A scan on an order array that does *not* sort the features
(`f[o[0]] = 2 > f[o[1]] = 1`): the scanner still runs its sweep and
returns an ordinary record. -/
theorem eval_cls_scan_unsorted :
    cls_scan ("gini") (1 / 2) [0, 1] [2, 1] [0, 1] 2 =
      (⟨0, 0, 3 / 2, 1 / 2⟩, [⟨1, 1, ([1, 0], [0, 1]), 0, 0, 3 / 2, 1 / 2⟩]) := by
  have hg : ∀ (hist : List ℝ) (m : ℕ),
      calc_impurity_cls ("gini") hist m 2 = calc_gini_coef hist m 2 := by
    intro hist m
    simp [calc_impurity_cls]
  norm_num [cls_scan, runScan, scanLoop, moveGroup, updateBest,
    foAt, clsStep, clsEval, buildHist, hist_add, hist_sub, hg,
    calc_gini_coef, recOf, List.range_succ, List.replicate_succ]

/-- C3 counterexample: on Scenario A's input the scanner does *not* return
`threshold = 5/2`, `leftImpurity = 0`, `rightImpurity = 0`,
`gain = wholeGini − 0`: no threshold separates the classes perfectly there
(samples 1 and 2 share feature value 2 with different labels). -/
theorem C3_counterexample :
    ¬((find_split_params_cls ("gini") (1 / 2) [0, 1, 2, 3] [1, 2, 2, 3]
          [0, 0, 1, 1] 2).threshold = 5 / 2 ∧
      (find_split_params_cls ("gini") (1 / 2) [0, 1, 2, 3] [1, 2, 2, 3]
          [0, 0, 1, 1] 2).l_impurity = 0 ∧
      (find_split_params_cls ("gini") (1 / 2) [0, 1, 2, 3] [1, 2, 2, 3]
          [0, 0, 1, 1] 2).r_impurity = 0 ∧
      (find_split_params_cls ("gini") (1 / 2) [0, 1, 2, 3] [1, 2, 2, 3]
          [0, 0, 1, 1] 2).gain = 1 / 2 - 0) := by
  have h : find_split_params_cls ("gini") (1 / 2) [0, 1, 2, 3] [1, 2, 2, 3]
      [0, 0, 1, 1] 2 = ⟨0, 4 / 9, 3 / 2, 1 / 6⟩ :=
    congrArg Prod.fst eval_cls_scan_A
  rw [h]
  intro hc
  have := hc.1
  norm_num at this

/-- C3 amended: on Scenario A's input the scanner returns
`threshold = 3/2`, `leftImpurity = 0`, `rightImpurity = 4/9` and
`gain = wholeGini − (1·0 + 3·(4/9))/4 = 1/6`; the equal-gain candidate at
threshold `5/2` is not taken because ties keep the earlier candidate. -/
theorem C3_amended :
    find_split_params_cls ("gini") (1 / 2) [0, 1, 2, 3] [1, 2, 2, 3] [0, 0, 1, 1] 2 =
      ⟨0, 4 / 9, 3 / 2, 1 / 6⟩ ∧
    (1 / 6 : ℝ) = 1 / 2 - (1 * 0 + 3 * (4 / 9)) / 4 := by
  exact ⟨congrArg Prod.fst eval_cls_scan_A, by norm_num⟩

/-- C9 counterexample: a call whose order array does not sort the feature
column (`f[o[0]] = 2 > f[o[1]] = 1`) is not rejected: the scan runs,
evaluates a candidate, and silently returns a computed record. -/
theorem C9_counterexample :
    foAt ([0, 1] : List ℕ) ([2, 1] : List ℝ) 1 < foAt ([0, 1] : List ℕ) ([2, 1] : List ℝ) 0 ∧
    cls_candidates ("gini") (1 / 2) [0, 1] [2, 1] [0, 1] 2 ≠ [] ∧
    find_split_params_cls ("gini") (1 / 2) [0, 1] [2, 1] [0, 1] 2 = ⟨0, 0, 3 / 2, 1 / 2⟩ := by
  refine ⟨by norm_num [foAt], ?_, congrArg Prod.fst eval_cls_scan_unsorted⟩
  have h : cls_candidates ("gini") (1 / 2) [0, 1] [2, 1] [0, 1] 2 =
      [⟨1, 1, ([1, 0], [0, 1]), 0, 0, 3 / 2, 1 / 2⟩] :=
    congrArg Prod.snd eval_cls_scan_unsorted
  rw [h]
  simp

/-- C9 amended: the split scanners perform no boundary validation at all:
on *every* input — whatever the array shapes or the order array — the
result is the one computed by the sweep (the strict-improvement fold over
the candidates it visits); no input is rejected. -/
theorem C9_no_validation (criterion : String) (w : ℝ) (o : List ℕ) (f : List ℝ)
    (y : List ℕ) (k : ℕ) (yr g h : List ℝ) (n_outputs : ℕ) (sg sh lam : ℝ) :
    find_split_params_cls criterion w o f y k =
      ((scanBounds (foAt o f) o.length).map
        (candAt (clsStep o y)
          (clsEval (fun hst m => calc_impurity_cls criterion hst m k) w o.length)
          (foAt o f) o.length
          (List.replicate k 0, buildHist o y o.length k))).foldl
        updateBest ⟨0, w, foAt o f 0, 0⟩ ∧
    find_split_params_reg criterion w o f yr n_outputs =
      ((scanBounds (foAt o f) o.length).map
        (candAt (regStep o) (regEval criterion w o.length) (foAt o f) o.length
          (reg_init o yr o.length n_outputs))).foldl
        updateBest ⟨0, w, foAt o f 0, 0⟩ ∧
    find_split_params_grad_reg o f g h sg sh lam =
      ((((scanBounds (foAt o f) o.length).map
          (candAt (gradStep o g h) (gradEval sg sh lam) (foAt o f) o.length
            ((0 : ℝ), (0 : ℝ)))).foldl updateBest ⟨0, 0, foAt o f 0, 0⟩).threshold,
       (((scanBounds (foAt o f) o.length).map
          (candAt (gradStep o g h) (gradEval sg sh lam) (foAt o f) o.length
            ((0 : ℝ), (0 : ℝ)))).foldl updateBest ⟨0, 0, foAt o f 0, 0⟩).gain) := by
  refine ⟨congrArg Prod.fst (runScan_eq _ _ _ _ _ _),
    congrArg Prod.fst (runScan_eq _ _ _ _ _ _), ?_⟩
  have h3 : (grad_scan o f g h sg sh lam).1 =
      ((scanBounds (foAt o f) o.length).map
        (candAt (gradStep o g h) (gradEval sg sh lam) (foAt o f) o.length
          ((0 : ℝ), (0 : ℝ)))).foldl updateBest ⟨0, 0, foAt o f 0, 0⟩ :=
    congrArg Prod.fst (runScan_eq _ _ _ _ _ _)
  show ((grad_scan o f g h sg sh lam).1.threshold, (grad_scan o f g h sg sh lam).1.gain) = _
  rw [h3]

end ConcreteRuns

/-! ## Witnesses -/

section Witnesses

theorem C1_witness :
    0 ≤ (find_split_params_cls ("gini") (1 / 2) [0, 1, 2, 3] [1, 2, 2, 3]
        [0, 0, 1, 1] 2).gain ∧
    (⟨1, 3, ([1, 0], [1, 2]), 0, 4 / 9, 3 / 2, 1 / 6⟩ :
        Cand ℝ (List ℝ × List ℝ)).gain ≤
      (find_split_params_cls ("gini") (1 / 2) [0, 1, 2, 3] [1, 2, 2, 3]
        [0, 0, 1, 1] 2).gain ∧
    0 ≤ (find_split_params_reg ("gini") ((1 : ℝ) / 2) [0, 1, 2, 3] [1, 2, 2, 3]
        [1, 2, 3, 4] 1).gain ∧
    0 ≤ (find_split_params_grad_reg [0, 1, 2, 3] ([1, 2, 2, 3] : List ℝ) [1, -1, 2, -2]
        [1, 1, 1, 1] 0 4 1).2 := by
  have hn : 1 ≤ ([0, 1, 2, 3] : List ℕ).length := by norm_num
  have hperm : ([0, 1, 2, 3] : List ℕ).Perm
      (List.range ([0, 1, 2, 3] : List ℕ).length) := by decide
  have hsort : ∀ i, i + 1 < ([0, 1, 2, 3] : List ℕ).length →
      foAt [0, 1, 2, 3] ([1, 2, 2, 3] : List ℝ) i ≤
        foAt [0, 1, 2, 3] ([1, 2, 2, 3] : List ℝ) (i + 1) := by
    intro i hi
    have hi3 : i < 3 := by
      simp only [List.length_cons, List.length_nil] at hi
      omega
    interval_cases i <;> norm_num [foAt]
  have hmem : (⟨1, 3, ([1, 0], [1, 2]), 0, 4 / 9, 3 / 2, 1 / 6⟩ :
      Cand ℝ (List ℝ × List ℝ)) ∈
      cls_candidates ("gini") (1 / 2) [0, 1, 2, 3] [1, 2, 2, 3] [0, 0, 1, 1] 2 := by
    have h := congrArg Prod.snd eval_cls_scan_A
    rw [show cls_candidates ("gini") (1 / 2) [0, 1, 2, 3] [1, 2, 2, 3] [0, 0, 1, 1] 2 =
      [⟨1, 3, ([1, 0], [1, 2]), 0, 4 / 9, 3 / 2, 1 / 6⟩,
       ⟨3, 1, ([2, 1], [0, 1]), 4 / 9, 0, 5 / 2, 1 / 6⟩] from h]
    exact List.mem_cons_self ..
  have H := C1_best_gain_dominates ("gini") (1 / 2) [0, 1, 2, 3] [1, 2, 2, 3]
    [0, 0, 1, 1] 2 [1, 2, 3, 4] [1, -1, 2, -2] [1, 1, 1, 1] 1 0 4 1 hn hperm hsort
  exact ⟨H.1.1, H.1.2.1 _ hmem, H.2.1.1, H.2.2.1⟩

theorem C2_witness :
    (⟨1, 3, ([1, 0], [1, 2]), 0, 4 / 9, 3 / 2, 1 / 6⟩ :
        Cand ℝ (List ℝ × List ℝ)).n_l +
      (⟨1, 3, ([1, 0], [1, 2]), 0, 4 / 9, 3 / 2, 1 / 6⟩ :
        Cand ℝ (List ℝ × List ℝ)).n_r = ([0, 1, 2, 3] : List ℕ).length ∧
    ∀ j, (⟨1, 3, ([1, 0], [1, 2]), 0, 4 / 9, 3 / 2, 1 / 6⟩ :
        Cand ℝ (List ℝ × List ℝ)).acc.1.getD j 0 +
      (⟨1, 3, ([1, 0], [1, 2]), 0, 4 / 9, 3 / 2, 1 / 6⟩ :
        Cand ℝ (List ℝ × List ℝ)).acc.2.getD j 0 =
      (buildHist (α := ℝ) [0, 1, 2, 3] [0, 0, 1, 1]
        ([0, 1, 2, 3] : List ℕ).length 2).getD j 0 := by
  have hmem : (⟨1, 3, ([1, 0], [1, 2]), 0, 4 / 9, 3 / 2, 1 / 6⟩ :
      Cand ℝ (List ℝ × List ℝ)) ∈
      cls_candidates ("gini") (1 / 2) [0, 1, 2, 3] [1, 2, 2, 3] [0, 0, 1, 1] 2 := by
    rw [show cls_candidates ("gini") (1 / 2) [0, 1, 2, 3] [1, 2, 2, 3] [0, 0, 1, 1] 2 =
      [⟨1, 3, ([1, 0], [1, 2]), 0, 4 / 9, 3 / 2, 1 / 6⟩,
       ⟨3, 1, ([2, 1], [0, 1]), 4 / 9, 0, 5 / 2, 1 / 6⟩] from
        congrArg Prod.snd eval_cls_scan_A]
    exact List.mem_cons_self ..
  exact (C2_partition_invariant ("gini") (1 / 2) [0, 1, 2, 3] [1, 2, 2, 3]
    [0, 0, 1, 1] 2 [1, 2, 3, 4] [1, 1, 1, 1] [1, 1, 1, 1] 1 0 4 1).1 _ hmem

theorem C4_witness :
    find_split_params_cls ("gini") (1 / 2) [0, 1] [5, 5] [0, 1] 2 = ⟨0, 1 / 2, 5, 0⟩ ∧
    cls_candidates ("gini") (1 / 2) [0, 1] [5, 5] [0, 1] 2 = [] ∧
    find_split_params_reg ("gini") ((1 : ℝ) / 2) [0, 1] [5, 5] [1, 2] 1 = ⟨0, 1 / 2, 5, 0⟩ ∧
    reg_candidates ("gini") ((1 : ℝ) / 2) [0, 1] [5, 5] [1, 2] 1 = [] ∧
    find_split_params_grad_reg [0, 1] ([5, 5] : List ℝ) [1, 1] [1, 1] 2 2 1 = (5, 0) ∧
    grad_candidates [0, 1] ([5, 5] : List ℝ) [1, 1] [1, 1] 2 2 1 = [] :=
  C4_all_equal_features ("gini") (1 / 2) [0, 1] [5, 5] [0, 1] 2 [1, 2] [1, 1] [1, 1]
    1 2 2 1 5 (by norm_num) (by decide)
    (by
      intro i hi
      have hi2 : i < 2 := by
        simp only [List.length_cons, List.length_nil] at hi
        omega
      interval_cases i <;> rfl)

theorem C5_witness :
    0 < 2 ∧
    (calc_entropy [1, 1] 2 2 =
      -(∑ i ∈ Finset.range 2,
        (([1, 1] : List ℝ).getD i 0 / ((2 : ℕ) : ℝ)) *
          Real.log (([1, 1] : List ℝ).getD i 0 / ((2 : ℕ) : ℝ) + 1)) ∧
     calc_entropy [1, 1] 2 2 ≠ shannonEntropy [1, 1] 2 2) :=
  ⟨by norm_num, C5_entropy_bounded_log [1, 1] 2 2 (by norm_num)⟩

theorem C7_witness :
    (∀ (hst : List ℝ) (m kk : ℕ),
      calc_impurity_cls ("foo") hst m kk = calc_gini_coef hst m kk) ∧
    find_split_params_cls ("foo") (1 / 2) [0, 1] [1, 2] [0, 1] 2 =
      find_split_params_cls ("gini") (1 / 2) [0, 1] [1, 2] [0, 1] 2 ∧
    node_impurity_cls ("foo") [0, 1] 2 = node_impurity_cls ("gini") [0, 1] 2 ∧
    (∀ (tvs : List (List ℝ)) (sv : List ℝ),
      calc_impurity_reg ("bar") tvs sv = calc_impurity_reg ("mse") tvs sv) ∧
    find_split_params_reg ("bar") ((1 : ℝ) / 2) [0, 1] [1, 2] [1, 2] 1 =
      find_split_params_reg ("mse") ((1 : ℝ) / 2) [0, 1] [1, 2] [1, 2] 1 ∧
    node_impurity_reg ("bar") ([[1], [2]] : List (List ℝ)) =
      node_impurity_reg ("mse") ([[1], [2]] : List (List ℝ)) :=
  C7_unknown_criterion_defaults ("foo") ("bar") (by decide) (by decide) (1 / 2)
    [0, 1] [1, 2] [0, 1] 2 [0, 1] [1, 2] 1 [[1], [2]]

theorem C8_witness :
    1 ≤ (⟨1, 3, ([1, 0], [1, 2]), 0, 4 / 9, 3 / 2, 1 / 6⟩ :
        Cand ℝ (List ℝ × List ℝ)).n_l ∧
    1 ≤ (⟨1, 3, ([1, 0], [1, 2]), 0, 4 / 9, 3 / 2, 1 / 6⟩ :
        Cand ℝ (List ℝ × List ℝ)).n_r ∧
    (⟨1, 3, ([1, 0], [1, 2]), 0, 4 / 9, 3 / 2, 1 / 6⟩ :
        Cand ℝ (List ℝ × List ℝ)).n_l +
      (⟨1, 3, ([1, 0], [1, 2]), 0, 4 / 9, 3 / 2, 1 / 6⟩ :
        Cand ℝ (List ℝ × List ℝ)).n_r = ([0, 1, 2, 3] : List ℕ).length ∧
    (⟨1, 3, ([1, 0], [1, 2]), 0, 4 / 9, 3 / 2, 1 / 6⟩ :
        Cand ℝ (List ℝ × List ℝ)).n_l < ([0, 1, 2, 3] : List ℕ).length := by
  have hn : 1 ≤ ([0, 1, 2, 3] : List ℕ).length := by norm_num
  have hperm : ([0, 1, 2, 3] : List ℕ).Perm
      (List.range ([0, 1, 2, 3] : List ℕ).length) := by decide
  have hsort : ∀ i, i + 1 < ([0, 1, 2, 3] : List ℕ).length →
      foAt [0, 1, 2, 3] ([1, 2, 2, 3] : List ℝ) i ≤
        foAt [0, 1, 2, 3] ([1, 2, 2, 3] : List ℝ) (i + 1) := by
    intro i hi
    have hi3 : i < 3 := by
      simp only [List.length_cons, List.length_nil] at hi
      omega
    interval_cases i <;> norm_num [foAt]
  have hmem : (⟨1, 3, ([1, 0], [1, 2]), 0, 4 / 9, 3 / 2, 1 / 6⟩ :
      Cand ℝ (List ℝ × List ℝ)) ∈
      cls_candidates ("gini") (1 / 2) [0, 1, 2, 3] [1, 2, 2, 3] [0, 0, 1, 1] 2 := by
    rw [show cls_candidates ("gini") (1 / 2) [0, 1, 2, 3] [1, 2, 2, 3] [0, 0, 1, 1] 2 =
      [⟨1, 3, ([1, 0], [1, 2]), 0, 4 / 9, 3 / 2, 1 / 6⟩,
       ⟨3, 1, ([2, 1], [0, 1]), 4 / 9, 0, 5 / 2, 1 / 6⟩] from
        congrArg Prod.snd eval_cls_scan_A]
    exact List.mem_cons_self ..
  exact (C8_partitions_nonempty ("gini") (1 / 2) [0, 1, 2, 3] [1, 2, 2, 3]
    [0, 0, 1, 1] 2 [1, 2, 3, 4] [1, 1, 1, 1] [1, 1, 1, 1] 1 0 4 1
    hn hperm hsort).1 _ hmem

end Witnesses

end Rumale
